import Mathlib

/-!
Formal model of the club-content crawler in
`src/juniorguru/sync/club_content.py`.

The crawler walks Discord text channels with a fixed pool of
`WORKERS_COUNT` asyncio workers sharing one `asyncio.Queue` and one
`authors` dict.  Workers read messages, dynamically enqueue discovered
threads, deduplicate users into the shared dict and write rows to the
database sink (`ClubMessage`, `ClubUser`, `ClubPinReaction`).

The embedding below follows the source:
* pure helpers (`create_user`, `get_reacting_users`, `create_reaction`,
  the `ClubMessage.create` row shape) are Lean functions;
* the worker loop `channel_worker` is a small-step relation `Step` on a
  global state `St`; one step is the code executed between two `await`
  suspension points of a single worker (asyncio's cooperative
  scheduling makes each such block atomic);
* the post-race logic of `process_channels` (lines 64-77) is the pure
  function `coordinatorDecision` from the drain flag and the task
  states of the workers.

Provider failures are injected at the suspension points (the awaited
`channel.history` iteration, `fetch_channel`, and `reaction.users()`
fetches), which is where exceptions surface in the source.
-/

/-- A reacting/authoring identity as delivered by the platform client.
`joined_at = some t` models a `Member` value (the object carries the
`joined_at` attribute with timestamp `t`); `joined_at = none` models a
plain `User` value which lacks the attribute, as described by the source
comment in `create_user`. -/
structure RUser where
  id : Nat
  bot : Bool
  display_name : String
  mention : String
  joined_at : Option Nat
  roles : List Nat
deriving DecidableEq, Repr

/-- One reaction on a message: its emoji and the users who placed it
(the result of iterating `reaction.users()`). -/
structure Reaction where
  emoji : String
  users : List RUser
deriving DecidableEq, Repr

mutual

/-- A crawlable container (channel or thread).  `items` pairs every
message with the thread it discloses, if any: the source checks
`message.flags.has_thread` and then fetches the thread channel. -/
inductive Channel : Type where
  | mk (cid : Nat) (name : String) (mention : String)
       (items : List (Msg × Option Channel)) : Channel

/-- One message yielded by `channel.history`. -/
inductive Msg : Type where
  | mk (mid : Nat) (url : String) (content : String) (author : RUser)
       (reactions : List Reaction) (created_at : Nat)
       (edited_at : Option Nat) (type_name : String) : Msg

end

def Channel.cid : Channel → Nat
  | .mk i _ _ _ => i

def Channel.name : Channel → String
  | .mk _ n _ _ => n

def Channel.mention : Channel → String
  | .mk _ _ m _ => m

def Channel.items : Channel → List (Msg × Option Channel)
  | .mk _ _ _ its => its

def Msg.mid : Msg → Nat
  | .mk i _ _ _ _ _ _ _ => i

def Msg.url : Msg → String
  | .mk _ u _ _ _ _ _ _ => u

def Msg.content : Msg → String
  | .mk _ _ c _ _ _ _ _ => c

def Msg.author : Msg → RUser
  | .mk _ _ _ a _ _ _ _ => a

def Msg.reactions : Msg → List Reaction
  | .mk _ _ _ _ rs _ _ _ => rs

def Msg.created_at : Msg → Nat
  | .mk _ _ _ _ _ t _ _ => t

def Msg.edited_at : Msg → Option Nat
  | .mk _ _ _ _ _ _ e _ => e

def Msg.type_name : Msg → String
  | .mk _ _ _ _ _ _ _ t => t

/-- Modelled from the spec: the configured qualifying set of normalized
emoji labels for "pin" reactions.  The source imports `EMOJI_PINS` from
`juniorguru.lib.club`, which is not among the available source files;
the spec only requires it to be a fixed configured set. -/
def EMOJI_PINS : List String := ["📌", "📍"]

/-- Modelled from the spec: emoji label normalization.  The source
imports `emoji_name` from `juniorguru.lib.club`, not among the
available source files; the spec describes it as producing the
normalized label of a reaction emoji.  Labels in the model are taken
as already normalized, so the normalization is the identity. -/
def emoji_name (emoji : String) : String := emoji

/-- Modelled from the spec: emoji set used for the upvote tally
(`count_upvotes` lives in `juniorguru.lib.club`, outside the available
sources). -/
def EMOJI_UPVOTES : List String := ["👍", "❤️"]

/-- Modelled from the spec: emoji set used for the downvote tally. -/
def EMOJI_DOWNVOTES : List String := ["👎"]

/-- Modelled from the spec: `count_upvotes` — a count derived from the
reaction tallies (implementation not under the available sources). -/
def count_upvotes (reactions : List Reaction) : Nat :=
  (reactions.filter (fun r => emoji_name r.emoji ∈ EMOJI_UPVOTES)).foldl
    (fun n r => n + r.users.length) 0

/-- Modelled from the spec: `count_downvotes`. -/
def count_downvotes (reactions : List Reaction) : Nat :=
  (reactions.filter (fun r => emoji_name r.emoji ∈ EMOJI_DOWNVOTES)).foldl
    (fun n r => n + r.users.length) 0

/-- Modelled from the spec: `count_pins`. -/
def count_pins (reactions : List Reaction) : Nat :=
  (reactions.filter (fun r => emoji_name r.emoji ∈ EMOJI_PINS)).foldl
    (fun n r => n + r.users.length) 0

/-- Modelled from the spec: `get_roles` — extraction of the role set of
a user (implementation in `juniorguru.lib.club`, outside the available
sources). -/
def get_roles (user : RUser) : List Nat := user.roles

/-- A `ClubUser` row, i.e. an Actor record of the registry. -/
structure Actor where
  id : Nat
  is_bot : Bool
  is_member : Bool
  display_name : String
  mention : String
  joined_at : Option Nat
  roles : List Nat
deriving DecidableEq, Repr

/-- `create_user` from the source: builds the `ClubUser` row.
`is_member=bool(getattr(user, 'joined_at', False))` is true exactly when
the object carries the `joined_at` attribute (a `Member`), and
`joined_at` is stored as the attribute's value when present, else
`None`. -/
def create_user (user : RUser) : Actor :=
  { id := user.id
    is_bot := user.bot
    is_member := user.joined_at.isSome
    display_name := user.display_name
    mention := user.mention
    joined_at := user.joined_at
    roles := get_roles user }

/-- Python-set insertion on user objects: discord user equality is by
id, so `users.add(user)` is a no-op when a user with the same id is
already present. -/
def setAdd (us : List RUser) (u : RUser) : List RUser :=
  if us.any (fun v => v.id == u.id) then us else us ++ [u]

/-- Fold `setAdd` over the users of one reaction. -/
def setAddAll (us : List RUser) : List RUser → List RUser
  | [] => us
  | u :: rest => setAddAll (setAdd us u) rest

/-- The loop body of `get_reacting_users`: walk the reactions, and for
each one whose normalized emoji is in `EMOJI_PINS`, add all its users
to the set. -/
def gatherReacting (us : List RUser) : List Reaction → List RUser
  | [] => us
  | r :: rest =>
      gatherReacting
        (if emoji_name r.emoji ∈ EMOJI_PINS then setAddAll us r.users else us)
        rest

/-- `get_reacting_users` from the source: the set of users who placed a
qualifying (pin) reaction, represented as a duplicate-free list in
first-encounter order. -/
def get_reacting_users (reactions : List Reaction) : List RUser :=
  gatherReacting [] reactions

/-- `create_reaction` from the source: a `ClubPinReaction` row is the
pair of the user id and the message id. -/
def create_reaction (user : RUser) (message : Msg) : Nat × Nat :=
  (user.id, message.mid)

/-- A `ClubMessage` row as built by `ClubMessage.create` inside
`channel_worker`. -/
structure MsgRecord where
  id : Nat
  url : String
  content : String
  upvotes_count : Nat
  downvotes_count : Nat
  pin_reactions_count : Nat
  created_at : Nat
  edited_at : Option Nat
  author : Nat
  channel_id : Nat
  channel_name : String
  channel_mention : String
  type_name : String
deriving DecidableEq, Repr

/-- The `ClubMessage.create` call of `channel_worker`, as a function of
the channel being read and the message. -/
def msgRow (c : Channel) (m : Msg) : MsgRecord :=
  { id := m.mid
    url := m.url
    content := m.content
    upvotes_count := count_upvotes m.reactions
    downvotes_count := count_downvotes m.reactions
    pin_reactions_count := count_pins m.reactions
    created_at := m.created_at
    edited_at := m.edited_at
    author := m.author.id
    channel_id := c.cid
    channel_name := c.name
    channel_mention := c.mention
    type_name := m.type_name }

/-- The pin rows created for one message: one `create_reaction` call per
element of `get_reacting_users`. -/
def reactionPins (m : Msg) : List (Nat × Nat) :=
  (get_reacting_users m.reactions).map (fun u => create_reaction u m)

/-! ### The coordinator (`process_channels`, lines 64-77)

After `asyncio.wait(..., return_when=FIRST_COMPLETED)` resolves, the
coordinator inspects `queue_completed.done()` and the workers' task
states.  `coordinatorDecision` is that logic as a pure function. -/

/-- The observable state of one worker task when the race resolves. -/
inductive TaskState where
  | running
  | doneOk
  | doneErr (e : Nat)
deriving DecidableEq, Repr

/-- `worker.done()`. -/
def TaskState.isDone : TaskState → Bool
  | .running => false
  | _ => true

/-- An error surfaced by `process_channels`. -/
inductive Err where
  | workerErr (e : Nat)
  | indexErr
deriving DecidableEq, Repr

/-- The result of one crawl: either the shared registry or the first
surfaced error. -/
inductive Outcome where
  | completed (registry : List Actor)
  | failedWith (e : Err)
deriving DecidableEq, Repr

/-- What `process_channels` does after the race, together with whether
the cancel-and-gather phase (lines 70-75) was executed before
returning/raising. -/
structure CoordResult where
  outcome : Outcome
  cancelledRest : Bool
deriving DecidableEq, Repr

/-- The post-race logic of `process_channels`:
if `queue_completed.done()` the crawl succeeded, the workers are
cancelled, `asyncio.gather(..., return_exceptions=True)` silently
collects cancellation errors, and `authors` is returned.  Otherwise
`workers_done[0].result()` is called on the first finished worker in
list order: if that worker raised, the error propagates immediately
(the cancel loop below is never reached); if it finished cleanly,
`result()` returns and control falls through to the cancel-and-gather
phase and the normal return.  An empty `workers_done` would make
`workers_done[0]` raise `IndexError`.  `cancelErrs` models the
exceptions collected by `gather(return_exceptions=True)`; the source
discards that list. -/
def coordinatorDecision (queueDone : Bool) (ws : List TaskState)
    (cancelErrs : List Nat) (registry : List Actor) : CoordResult :=
  let _ := cancelErrs
  if queueDone then
    { outcome := Outcome.completed registry, cancelledRest := true }
  else
    match (ws.filter TaskState.isDone).head? with
    | some (TaskState.doneErr e) =>
        { outcome := Outcome.failedWith (Err.workerErr e), cancelledRest := false }
    | some _ =>
        { outcome := Outcome.completed registry, cancelledRest := true }
    | none =>
        { outcome := Outcome.failedWith Err.indexErr, cancelledRest := false }

/-- The error surfaced by the coordinator when a worker finished first:
the result of the first finished worker in creation order, if it is an
error. -/
def firstDoneErr (ws : List TaskState) : Option Nat :=
  match (ws.filter TaskState.isDone).head? with
  | some (TaskState.doneErr e) => some e
  | _ => none

/-! ### The worker loop (`channel_worker`) as a small-step system

`channel_worker` runs `while True`: `await queue.get()`, then
`async for message in channel.history(...)`.  Per message it (a) if
`message.flags.has_thread`, awaits `fetch_channel` and then
`queue.put_nowait(thread)`, (b) inserts the author into `authors` if
absent, (c) calls `ClubMessage.create`, (d) awaits
`get_reacting_users`, and (e) for each reacting user inserts the user
if absent and calls `create_reaction`.  After the history iterator is
exhausted it calls `queue.task_done()` and loops.

Code between two awaits of one worker is a single atomic step; the
scheduler interleaves workers arbitrarily at the awaits. -/

/-- Ghost event log entries, tagged with the index of the worker that
produced them (the seed puts of the coordinator are tagged with the
worker count). -/
inductive Event where
  | put (w : Nat) (cid : Nat)
  | resolve (w : Nat) (uid : Nat)
  | emit (w : Nat) (mid : Nat) (aid : Nat) (tid : Option Nat)
  | link (w : Nat) (uid : Nat) (mid : Nat)
  | markDone (w : Nat) (cid : Nat)
deriving DecidableEq, Repr

/-- The control position of one worker between two suspension points.
`fetchMsg c k` means: reading channel `c`, about to await message
number `k` of its history (or its exhaustion).  `gotThread c k` means:
message `k` disclosed a thread, `fetch_channel` resolved, and the
enqueue-insert-create block is about to run.  `postEmit c k` means:
message `k` was stored and `get_reacting_users` resolved, the reaction
block is about to run.  `failed c e` means: a provider/sink call for
channel `c` raised error `e` and the worker's coroutine terminated
with it — `queue.task_done()` is never called for `c`. -/
inductive PC where
  | idle
  | fetchMsg (c : Channel) (k : Nat)
  | gotThread (c : Channel) (k : Nat)
  | postEmit (c : Channel) (k : Nat)
  | failed (c : Channel) (e : Nat)

/-- The channel held (dequeued, not yet `task_done`) by a worker. -/
def PC.holding : PC → Option Channel
  | .idle => none
  | .fetchMsg c _ => some c
  | .gotThread c _ => some c
  | .postEmit c _ => some c
  | .failed c _ => some c

/-- The asyncio task state of a worker as `process_channels` sees it:
the loop is unbounded, so a worker task is either still running or has
terminated with an exception. -/
def PC.task : PC → TaskState
  | .failed _ e => TaskState.doneErr e
  | _ => TaskState.running

/-- The global crawl state: the queue buffer, the queue's
`_unfinished_tasks` counter, the shared `authors` registry, the three
database tables, the worker control positions, and ghost bookkeeping
(the event log, every channel ever `put`, every channel
`task_done`d). -/
structure St where
  queue : List Channel
  unfinished : Nat
  authors : List Actor
  messages : List MsgRecord
  pins : List (Nat × Nat)
  pcs : List PC
  trace : List Event
  enqueued : List Channel
  doneChannels : List Channel

/-- Check-then-insert on the shared `authors` dict:
`if user.id not in authors: authors[user.id] = create_user(user)`.
It runs with no suspension point inside, hence atomically. -/
def registryInsert (authors : List Actor) (u : RUser) : List Actor :=
  if authors.any (fun a => a.id == u.id) then authors
  else authors ++ [create_user u]

/-- The reaction loop's effect on the registry: one guarded insert per
reacting user, in order. -/
def registryInsertAll (authors : List Actor) : List RUser → List Actor
  | [] => authors
  | u :: us => registryInsertAll (registryInsert authors u) us

/-- Ghost trace of the reaction loop: per reacting user, the registry
resolve followed by the `create_reaction` call. -/
def reactTraceAux (w : Nat) (mid : Nat) : List RUser → List Event
  | [] => []
  | u :: us => Event.resolve w u.id :: Event.link w u.id mid :: reactTraceAux w mid us

/-- Ghost trace of the whole reaction block of one message. -/
def reactTrace (w : Nat) (m : Msg) : List Event :=
  reactTraceAux w m.mid (get_reacting_users m.reactions)

/-- One atomic step of one worker.  Constructor ↔ source:
* `get`: `channel = await queue.get()` (FIFO dequeue).
* `msgPlain`: the history await yields message `k`, it has no thread,
  and the author-insert + `ClubMessage.create` block runs; the worker
  then suspends at `get_reacting_users`.
* `msgThread`: the history await yields message `k`, which has a
  thread; the worker suspends at `fetch_channel`.
* `threadBlock`: `fetch_channel` resolved; `queue.put_nowait(thread)`,
  the author insert and `ClubMessage.create` run; the worker suspends
  at `get_reacting_users`.
* `reactions`: `get_reacting_users` resolved; the reaction loop runs
  and the worker returns to the history await for message `k+1`.
* `finish`: the history iterator is exhausted; `queue.task_done()`
  runs and the worker loops back to `await queue.get()`.
* `failFetch`/`failThread`/`failReact`: the awaited provider call
  raised error `e`; the exception propagates out of `channel_worker`,
  terminating the task without `task_done`. -/
inductive Step : St → St → Prop where
  | get : ∀ (s : St) (i : Nat) (c : Channel) (rest : List Channel),
      s.pcs.get? i = some PC.idle →
      s.queue = c :: rest →
      Step s { s with
        queue := rest
        pcs := s.pcs.set i (PC.fetchMsg c 0) }
  | msgPlain : ∀ (s : St) (i : Nat) (c : Channel) (k : Nat) (m : Msg),
      s.pcs.get? i = some (PC.fetchMsg c k) →
      c.items.get? k = some (m, none) →
      Step s { s with
        authors := registryInsert s.authors m.author
        messages := s.messages ++ [msgRow c m]
        trace := s.trace ++
          [Event.resolve i m.author.id, Event.emit i m.mid m.author.id none]
        pcs := s.pcs.set i (PC.postEmit c k) }
  | msgThread : ∀ (s : St) (i : Nat) (c : Channel) (k : Nat) (m : Msg) (t : Channel),
      s.pcs.get? i = some (PC.fetchMsg c k) →
      c.items.get? k = some (m, some t) →
      Step s { s with pcs := s.pcs.set i (PC.gotThread c k) }
  | threadBlock : ∀ (s : St) (i : Nat) (c : Channel) (k : Nat) (m : Msg) (t : Channel),
      s.pcs.get? i = some (PC.gotThread c k) →
      c.items.get? k = some (m, some t) →
      Step s { s with
        queue := s.queue ++ [t]
        unfinished := s.unfinished + 1
        enqueued := s.enqueued ++ [t]
        authors := registryInsert s.authors m.author
        messages := s.messages ++ [msgRow c m]
        trace := s.trace ++
          [Event.put i t.cid, Event.resolve i m.author.id,
           Event.emit i m.mid m.author.id (some t.cid)]
        pcs := s.pcs.set i (PC.postEmit c k) }
  | reactions : ∀ (s : St) (i : Nat) (c : Channel) (k : Nat) (m : Msg)
      (th : Option Channel),
      s.pcs.get? i = some (PC.postEmit c k) →
      c.items.get? k = some (m, th) →
      Step s { s with
        authors := registryInsertAll s.authors (get_reacting_users m.reactions)
        pins := s.pins ++ reactionPins m
        trace := s.trace ++ reactTrace i m
        pcs := s.pcs.set i (PC.fetchMsg c (k + 1)) }
  | finish : ∀ (s : St) (i : Nat) (c : Channel) (k : Nat),
      s.pcs.get? i = some (PC.fetchMsg c k) →
      c.items.get? k = none →
      Step s { s with
        unfinished := s.unfinished - 1
        doneChannels := s.doneChannels ++ [c]
        trace := s.trace ++ [Event.markDone i c.cid]
        pcs := s.pcs.set i PC.idle }
  | failFetch : ∀ (s : St) (i : Nat) (c : Channel) (k : Nat) (e : Nat),
      s.pcs.get? i = some (PC.fetchMsg c k) →
      Step s { s with pcs := s.pcs.set i (PC.failed c e) }
  | failThread : ∀ (s : St) (i : Nat) (c : Channel) (k : Nat) (e : Nat),
      s.pcs.get? i = some (PC.gotThread c k) →
      Step s { s with pcs := s.pcs.set i (PC.failed c e) }
  | failReact : ∀ (s : St) (i : Nat) (c : Channel) (k : Nat) (e : Nat),
      s.pcs.get? i = some (PC.postEmit c k) →
      Step s { s with pcs := s.pcs.set i (PC.failed c e) }

/-- Reachability under an arbitrary scheduling interleaving. -/
inductive Reach (s0 : St) : St → Prop where
  | refl : Reach s0 s0
  | step : ∀ {s t : St}, Reach s0 s → Step s t → Reach s0 t

/-- The start of `process_channels`: every seed channel is
`put_nowait`ed (incrementing `_unfinished_tasks`), and `n` workers are
started at the top of their loop. -/
def init (seeds : List Channel) (n : Nat) : St :=
  { queue := seeds
    unfinished := seeds.length
    authors := []
    messages := []
    pins := []
    pcs := List.replicate n PC.idle
    trace := seeds.map (fun c => Event.put n c.cid)
    enqueued := seeds
    doneChannels := [] }

/-- The channels currently held by workers (dequeued, not yet marked
done — including channels abandoned by failed workers). -/
def activeChannels (pcs : List PC) : List Channel :=
  pcs.filterMap PC.holding

/-- `queue.join()` of the drain watcher returns exactly when
`_unfinished_tasks` is zero. -/
def drained (s : St) : Bool := s.unfinished == 0

/-- The coordinator's decision applied to a crawl state at race
resolution time. -/
def coordinatorOutcome (s : St) (cancelErrs : List Nat) : CoordResult :=
  coordinatorDecision (drained s) (s.pcs.map PC.task) cancelErrs s.authors

/-! ### List utilities -/

theorem getq_some_lt {α : Type} {l : List α} {n : Nat} {x : α}
    (h : l.get? n = some x) : n < l.length := by
  induction l generalizing n with
  | nil => cases h
  | cons a t ih =>
      cases n with
      | zero => simp
      | succ k => exact Nat.succ_lt_succ (ih h)

theorem getq_append_left {α : Type} (l₁ l₂ : List α) (n : Nat)
    (h : n < l₁.length) : (l₁ ++ l₂).get? n = l₁.get? n := by
  induction l₁ generalizing n with
  | nil => simp at h
  | cons a t ih =>
      cases n with
      | zero => rfl
      | succ k => exact ih k (Nat.lt_of_succ_lt_succ h)

theorem getq_append_add {α : Type} (l₁ l₂ : List α) (n : Nat) :
    (l₁ ++ l₂).get? (l₁.length + n) = l₂.get? n := by
  induction l₁ with
  | nil => simp
  | cons a t ih => simpa [Nat.succ_add] using ih

theorem getq_append_cases {α : Type} {l₁ l₂ : List α} {n : Nat} {x : α}
    (h : (l₁ ++ l₂).get? n = some x) :
    (n < l₁.length ∧ l₁.get? n = some x) ∨
    (∃ k, n = l₁.length + k ∧ l₂.get? k = some x) := by
  by_cases hn : n < l₁.length
  · exact Or.inl ⟨hn, by rw [← getq_append_left l₁ l₂ n hn]; exact h⟩
  · refine Or.inr ⟨n - l₁.length, ?_, ?_⟩
    · omega
    · have he : n = l₁.length + (n - l₁.length) := by omega
      rw [← getq_append_add l₁ l₂ (n - l₁.length), ← he]
      exact h

theorem getq_mem {α : Type} {l : List α} {n : Nat} {x : α}
    (h : l.get? n = some x) : x ∈ l := by
  induction l generalizing n with
  | nil => cases h
  | cons a t ih =>
      cases n with
      | zero =>
          have hx : a = x := Option.some.inj h
          rw [← hx]
          exact List.mem_cons_self a t
      | succ k => exact List.mem_cons_of_mem a (ih h)

theorem mem_getq {α : Type} {l : List α} {x : α}
    (h : x ∈ l) : ∃ n, l.get? n = some x := by
  induction l with
  | nil => cases h
  | cons a t ih =>
      rcases List.mem_cons.mp h with rfl | hm
      · exact ⟨0, rfl⟩
      · obtain ⟨n, hn⟩ := ih hm
        exact ⟨n + 1, hn⟩

theorem getq_set_self {α : Type} (l : List α) (i : Nat) (a : α)
    (h : i < l.length) : (l.set i a).get? i = some a := by
  induction l generalizing i with
  | nil => simp at h
  | cons x t ih =>
      cases i with
      | zero => rfl
      | succ k => exact ih k (Nat.lt_of_succ_lt_succ h)

theorem getq_set_other {α : Type} (l : List α) (i j : Nat) (a : α)
    (h : i ≠ j) : (l.set i a).get? j = l.get? j := by
  induction l generalizing i j with
  | nil => simp
  | cons x t ih =>
      cases i with
      | zero =>
          cases j with
          | zero => exact absurd rfl h
          | succ k => rfl
      | succ i' =>
          cases j with
          | zero => rfl
          | succ k => exact ih i' k (fun he => h (by rw [he]))

theorem filterMap_set_split {α β : Type} (f : α → Option β) :
    ∀ (l : List α) (i : Nat) (a : α), l.get? i = some a → ∀ (b : α),
    ∃ u v, l.filterMap f = u ++ (f a).toList ++ v ∧
           (l.set i b).filterMap f = u ++ (f b).toList ++ v := by
  intro l
  induction l with
  | nil => intro i a h b; cases h
  | cons x t ih =>
      intro i a h b
      cases i with
      | zero =>
          have hx : x = a := by
            have : some x = some a := h
            exact Option.some.inj this
          subst hx
          refine ⟨[], t.filterMap f, ?_, ?_⟩
          · cases hfa : f x <;> simp [List.filterMap_cons, hfa]
          · cases hfb : f b <;> simp [List.filterMap_cons, hfb]
      | succ k =>
          obtain ⟨u, v, h1, h2⟩ := ih k a h b
          refine ⟨(f x).toList ++ u, v, ?_, ?_⟩
          · cases hfx : f x <;>
              simp [List.filterMap_cons, hfx, h1, List.append_assoc]
          · cases hfx : f x <;>
              simp [List.filterMap_cons, hfx, h2, List.append_assoc]

/-! ### Registry lemmas -/

theorem mem_registryInsert {authors : List Actor} {u : RUser} {a : Actor}
    (h : a ∈ registryInsert authors u) : a ∈ authors ∨ a = create_user u := by
  unfold registryInsert at h
  split at h
  · exact Or.inl h
  · rcases List.mem_append.mp h with hm | hm
    · exact Or.inl hm
    · exact Or.inr (List.mem_singleton.mp hm)

theorem registryInsert_mem_old {authors : List Actor} {u : RUser} {a : Actor}
    (h : a ∈ authors) : a ∈ registryInsert authors u := by
  unfold registryInsert
  split
  · exact h
  · exact List.mem_append.mpr (Or.inl h)

theorem registryInsert_ids_sup {authors : List Actor} {u : RUser} {x : Nat}
    (h : x ∈ authors.map Actor.id) :
    x ∈ (registryInsert authors u).map Actor.id := by
  obtain ⟨a, ha, rfl⟩ := List.mem_map.mp h
  exact List.mem_map.mpr ⟨a, registryInsert_mem_old ha, rfl⟩

theorem registryInsert_id_mem (authors : List Actor) (u : RUser) :
    u.id ∈ (registryInsert authors u).map Actor.id := by
  unfold registryInsert
  split
  · next hany =>
      rw [List.any_eq_true] at hany
      obtain ⟨a, ha, hid⟩ := hany
      have : a.id = u.id := by simpa using hid
      exact this ▸ List.mem_map.mpr ⟨a, ha, rfl⟩
  · refine List.mem_map.mpr ⟨create_user u, ?_, rfl⟩
    exact List.mem_append.mpr (Or.inr (List.mem_singleton.mpr rfl))

theorem registryInsert_nodup {authors : List Actor} {u : RUser}
    (h : (authors.map Actor.id).Nodup) :
    ((registryInsert authors u).map Actor.id).Nodup := by
  unfold registryInsert
  split
  · next hany => exact h
  · next hany =>
      rw [List.map_append]
      refine List.Nodup.append h (List.nodup_singleton _) ?_
      intro x hx hx'
      have hx2 : x = (create_user u).id := List.mem_singleton.mp hx'
      obtain ⟨a, ha, hid⟩ := List.mem_map.mp hx
      have hall : authors.any (fun a => a.id == u.id) = true := by
        refine List.any_eq_true.mpr ⟨a, ha, ?_⟩
        have hid2 : a.id = u.id := by rw [hid, hx2]; rfl
        simpa using hid2
      simp [hall] at hany

theorem mem_registryInsertAll {a : Actor} :
    ∀ {us : List RUser} {authors : List Actor},
    a ∈ registryInsertAll authors us →
    a ∈ authors ∨ ∃ u ∈ us, a = create_user u := by
  intro us
  induction us with
  | nil => intro authors h; exact Or.inl h
  | cons u rest ih =>
      intro authors h
      rcases ih h with hm | ⟨v, hv, rfl⟩
      · rcases mem_registryInsert hm with hm' | rfl
        · exact Or.inl hm'
        · exact Or.inr ⟨u, List.mem_cons_self u rest, rfl⟩
      · exact Or.inr ⟨v, List.mem_cons_of_mem u hv, rfl⟩

theorem registryInsertAll_ids_sup {x : Nat} :
    ∀ {us : List RUser} {authors : List Actor},
    x ∈ authors.map Actor.id →
    x ∈ (registryInsertAll authors us).map Actor.id := by
  intro us
  induction us with
  | nil => intro authors h; exact h
  | cons u rest ih =>
      intro authors h
      exact ih (registryInsert_ids_sup h)

theorem registryInsertAll_id_mem {u : RUser} :
    ∀ {us : List RUser} {authors : List Actor}, u ∈ us →
    u.id ∈ (registryInsertAll authors us).map Actor.id := by
  intro us
  induction us with
  | nil => intro authors h; cases h
  | cons v rest ih =>
      intro authors h
      rcases List.mem_cons.mp h with rfl | hm
      · show u.id ∈ (registryInsertAll (registryInsert authors u) rest).map Actor.id
        exact registryInsertAll_ids_sup (registryInsert_id_mem authors u)
      · show u.id ∈ (registryInsertAll (registryInsert authors v) rest).map Actor.id
        exact ih hm

theorem registryInsertAll_nodup :
    ∀ {us : List RUser} {authors : List Actor},
    (authors.map Actor.id).Nodup →
    ((registryInsertAll authors us).map Actor.id).Nodup := by
  intro us
  induction us with
  | nil => intro authors h; exact h
  | cons u rest ih =>
      intro authors h
      exact ih (registryInsert_nodup h)

/-! ### `get_reacting_users` lemmas -/

theorem mem_setAdd {us : List RUser} {u v : RUser}
    (h : v ∈ setAdd us u) : v ∈ us ∨ v = u := by
  unfold setAdd at h
  split at h
  · exact Or.inl h
  · rcases List.mem_append.mp h with hm | hm
    · exact Or.inl hm
    · exact Or.inr (List.mem_singleton.mp hm)

theorem setAdd_nodup {us : List RUser} {u : RUser}
    (h : (us.map RUser.id).Nodup) : ((setAdd us u).map RUser.id).Nodup := by
  unfold setAdd
  split
  · next hany => exact h
  · next hany =>
      rw [List.map_append]
      refine List.Nodup.append h (List.nodup_singleton _) ?_
      intro x hx hx'
      have hx2 : x = u.id := List.mem_singleton.mp hx'
      obtain ⟨v, hv, hid⟩ := List.mem_map.mp hx
      have hall : us.any (fun v => v.id == u.id) = true := by
        refine List.any_eq_true.mpr ⟨v, hv, ?_⟩
        have hid2 : v.id = u.id := by rw [hid, hx2]
        simpa using hid2
      simp [hall] at hany

theorem mem_setAddAll {v : RUser} :
    ∀ {l : List RUser} {us : List RUser},
    v ∈ setAddAll us l → v ∈ us ∨ v ∈ l := by
  intro l
  induction l with
  | nil => intro us h; exact Or.inl h
  | cons u rest ih =>
      intro us h
      rcases ih h with hm | hm
      · rcases mem_setAdd hm with hm' | hveq
        · exact Or.inl hm'
        · rw [hveq]
          exact Or.inr (List.mem_cons_self _ _)
      · exact Or.inr (List.mem_cons_of_mem u hm)

theorem setAddAll_nodup :
    ∀ {l : List RUser} {us : List RUser},
    (us.map RUser.id).Nodup → ((setAddAll us l).map RUser.id).Nodup := by
  intro l
  induction l with
  | nil => intro us h; exact h
  | cons u rest ih => intro us h; exact ih (setAdd_nodup h)

theorem mem_gatherReacting {v : RUser} :
    ∀ {rs : List Reaction} {us : List RUser},
    v ∈ gatherReacting us rs →
    v ∈ us ∨ ∃ r ∈ rs, emoji_name r.emoji ∈ EMOJI_PINS ∧ v ∈ r.users := by
  intro rs
  induction rs with
  | nil => intro us h; exact Or.inl h
  | cons r rest ih =>
      intro us h
      rcases ih h with hm | ⟨r', hr', hq, hv⟩
      · by_cases hq : emoji_name r.emoji ∈ EMOJI_PINS
        · rw [if_pos hq] at hm
          rcases mem_setAddAll hm with hm' | hm'
          · exact Or.inl hm'
          · exact Or.inr ⟨r, List.mem_cons_self r rest, hq, hm'⟩
        · rw [if_neg hq] at hm
          exact Or.inl hm
      · exact Or.inr ⟨r', List.mem_cons_of_mem r hr', hq, hv⟩

theorem gatherReacting_nodup :
    ∀ {rs : List Reaction} {us : List RUser},
    (us.map RUser.id).Nodup → ((gatherReacting us rs).map RUser.id).Nodup := by
  intro rs
  induction rs with
  | nil => intro us h; exact h
  | cons r rest ih =>
      intro us h
      refine ih ?_
      split
      · exact setAddAll_nodup h
      · exact h

theorem mem_get_reacting_users {v : RUser} {rs : List Reaction}
    (h : v ∈ get_reacting_users rs) :
    ∃ r ∈ rs, emoji_name r.emoji ∈ EMOJI_PINS ∧ v ∈ r.users := by
  rcases mem_gatherReacting h with hm | hm
  · cases hm
  · exact hm

theorem get_reacting_users_nodup (rs : List Reaction) :
    ((get_reacting_users rs).map RUser.id).Nodup :=
  gatherReacting_nodup List.nodup_nil

/-! ### Ordering properties of the event log

These capture the per-record order of operations of `channel_worker`:
for every emitted record, the disclosed thread's enqueue precedes the
author resolve, which precedes `ClubMessage.create`; and every
`create_reaction` happens after first the record's row was stored and
then the reacting user was resolved. -/

/-- The events preceding one emit event, in the order the worker
executes them: an author resolve strictly before the emit, and — when
the record disclosed a child — the child's put strictly before that
resolve. -/
def emitOrderAt (t : List Event) (j w mid aid : Nat) (tid : Option Nat) : Prop :=
  ∃ ir, ir < j ∧ t.get? ir = some (Event.resolve w aid) ∧
    ∀ tcid, tid = some tcid →
      ∃ ip, ip < ir ∧ t.get? ip = some (Event.put w tcid)

/-- The events preceding one link event, in the order the worker
executes them: first the record's emit, then — strictly after it — the
reacting user's resolve, then the link. -/
def linkOrderAt (t : List Event) (i w uid mid : Nat) : Prop :=
  ∃ je jr, je < jr ∧ jr < i ∧
    (∃ aid tid, t.get? je = some (Event.emit w mid aid tid)) ∧
    t.get? jr = some (Event.resolve w uid)

structure TraceOrd (t : List Event) : Prop where
  emitOrder : ∀ j w mid aid tid,
      t.get? j = some (Event.emit w mid aid tid) →
      emitOrderAt t j w mid aid tid
  linkOrder : ∀ i w uid mid,
      t.get? i = some (Event.link w uid mid) →
      linkOrderAt t i w uid mid

theorem traceOrd_lift {t seg : List Event} {i : Nat} {x : Event}
    (hi : t.get? i = some x) : (t ++ seg).get? i = some x := by
  rw [getq_append_left t seg i (getq_some_lt hi)]
  exact hi

theorem emitOrderAt_lift {t seg : List Event} {j w mid aid : Nat}
    {tid : Option Nat} (h : emitOrderAt t j w mid aid tid) :
    emitOrderAt (t ++ seg) j w mid aid tid := by
  obtain ⟨ir, h1, h2, h3⟩ := h
  refine ⟨ir, h1, traceOrd_lift h2, fun tcid htc => ?_⟩
  obtain ⟨ip, h4, h5⟩ := h3 tcid htc
  exact ⟨ip, h4, traceOrd_lift h5⟩

theorem linkOrderAt_lift {t seg : List Event} {i w uid mid : Nat}
    (h : linkOrderAt t i w uid mid) :
    linkOrderAt (t ++ seg) i w uid mid := by
  obtain ⟨je, jr, h1, h2, ⟨aid, tid, h3⟩, h4⟩ := h
  exact ⟨je, jr, h1, h2, ⟨aid, tid, traceOrd_lift h3⟩, traceOrd_lift h4⟩

theorem getq_pair_zero {a b x : Event} (h : [a, b].get? 0 = some x) : x = a :=
  (Option.some.inj h).symm

theorem getq_pair_one {a b x : Event} (h : [a, b].get? 1 = some x) : x = b :=
  (Option.some.inj h).symm

theorem getq_triple_zero {a b c x : Event} (h : [a, b, c].get? 0 = some x) :
    x = a := (Option.some.inj h).symm

theorem getq_triple_one {a b c x : Event} (h : [a, b, c].get? 1 = some x) :
    x = b := (Option.some.inj h).symm

theorem getq_triple_two {a b c x : Event} (h : [a, b, c].get? 2 = some x) :
    x = c := (Option.some.inj h).symm

/-- Appending the ghost events of the no-thread message block. -/
theorem traceOrd_append_plain {t : List Event} (w mid aid : Nat)
    (h : TraceOrd t) :
    TraceOrd (t ++ [Event.resolve w aid, Event.emit w mid aid none]) := by
  constructor
  case emitOrder =>
    intro j w' mid' aid' tid' hj
    rcases getq_append_cases hj with ⟨_, hold⟩ | ⟨k, rfl, hk⟩
    · exact emitOrderAt_lift (h.emitOrder j w' mid' aid' tid' hold)
    · match k, hk with
      | 0, hk => exact absurd (getq_pair_zero hk) (by simp)
      | 1, hk =>
          have he := getq_pair_one hk
          have hw : w' = w ∧ mid' = mid ∧ aid' = aid ∧ tid' = none := by
            simpa [Event.emit.injEq] using he
          refine ⟨t.length, by omega, ?_, ?_⟩
          · rw [hw.1, hw.2.2.1]
            have h0 := getq_append_add t
              [Event.resolve w aid, Event.emit w mid aid none] 0
            simpa using h0
          · intro tcid htc
            rw [hw.2.2.2] at htc
            exact Option.noConfusion htc
      | n + 2, hk => exact Option.noConfusion hk
  case linkOrder =>
    intro i w' uid' mid' hi
    rcases getq_append_cases hi with ⟨_, hold⟩ | ⟨k, rfl, hk⟩
    · exact linkOrderAt_lift (h.linkOrder i w' uid' mid' hold)
    · match k, hk with
      | 0, hk => exact absurd (getq_pair_zero hk) (by simp)
      | 1, hk => exact absurd (getq_pair_one hk) (by simp)
      | n + 2, hk => exact Option.noConfusion hk

/-- Appending the ghost events of the thread message block. -/
theorem traceOrd_append_thread {t : List Event} (w mid aid tc : Nat)
    (h : TraceOrd t) :
    TraceOrd (t ++ [Event.put w tc, Event.resolve w aid,
      Event.emit w mid aid (some tc)]) := by
  constructor
  case emitOrder =>
    intro j w' mid' aid' tid' hj
    rcases getq_append_cases hj with ⟨_, hold⟩ | ⟨k, rfl, hk⟩
    · exact emitOrderAt_lift (h.emitOrder j w' mid' aid' tid' hold)
    · match k, hk with
      | 0, hk => exact absurd (getq_triple_zero hk) (by simp)
      | 1, hk => exact absurd (getq_triple_one hk) (by simp)
      | 2, hk =>
          have he := getq_triple_two hk
          have hw : w' = w ∧ mid' = mid ∧ aid' = aid ∧ tid' = some tc := by
            simpa [Event.emit.injEq] using he
          refine ⟨t.length + 1, by omega, ?_, ?_⟩
          · rw [hw.1, hw.2.2.1]
            have h0 := getq_append_add t
              [Event.put w tc, Event.resolve w aid,
               Event.emit w mid aid (some tc)] 1
            simpa using h0
          · intro tcid htc
            rw [hw.2.2.2] at htc
            have htceq : tc = tcid := Option.some.inj htc
            refine ⟨t.length, by omega, ?_⟩
            rw [hw.1, ← htceq]
            have h0 := getq_append_add t
              [Event.put w tc, Event.resolve w aid,
               Event.emit w mid aid (some tc)] 0
            simpa using h0
      | n + 3, hk => exact Option.noConfusion hk
  case linkOrder =>
    intro i w' uid' mid' hi
    rcases getq_append_cases hi with ⟨_, hold⟩ | ⟨k, rfl, hk⟩
    · exact linkOrderAt_lift (h.linkOrder i w' uid' mid' hold)
    · match k, hk with
      | 0, hk => exact absurd (getq_triple_zero hk) (by simp)
      | 1, hk => exact absurd (getq_triple_one hk) (by simp)
      | 2, hk => exact absurd (getq_triple_two hk) (by simp)
      | n + 3, hk => exact Option.noConfusion hk

/-- Appending the `task_done` ghost event. -/
theorem traceOrd_append_markDone {t : List Event} (w cid : Nat)
    (h : TraceOrd t) : TraceOrd (t ++ [Event.markDone w cid]) := by
  constructor
  case emitOrder =>
    intro j w' mid' aid' tid' hj
    rcases getq_append_cases hj with ⟨_, hold⟩ | ⟨k, rfl, hk⟩
    · exact emitOrderAt_lift (h.emitOrder j w' mid' aid' tid' hold)
    · match k, hk with
      | 0, hk => exact absurd ((Option.some.inj hk).symm) (by simp)
      | n + 1, hk => exact Option.noConfusion hk
  case linkOrder =>
    intro i w' uid' mid' hi
    rcases getq_append_cases hi with ⟨_, hold⟩ | ⟨k, rfl, hk⟩
    · exact linkOrderAt_lift (h.linkOrder i w' uid' mid' hold)
    · match k, hk with
      | 0, hk => exact absurd ((Option.some.inj hk).symm) (by simp)
      | n + 1, hk => exact Option.noConfusion hk

/-- Appending the resolve-then-link pair of one reacting user, given
that the message row was already emitted earlier in the log. -/
theorem traceOrd_append_pair {t : List Event} {w uid mid : Nat}
    (h : TraceOrd t)
    (hemit : ∃ i aid tid, i < t.length ∧
      t.get? i = some (Event.emit w mid aid tid)) :
    TraceOrd (t ++ [Event.resolve w uid, Event.link w uid mid]) := by
  constructor
  case emitOrder =>
    intro j w' mid' aid' tid' hj
    rcases getq_append_cases hj with ⟨_, hold⟩ | ⟨k, rfl, hk⟩
    · exact emitOrderAt_lift (h.emitOrder j w' mid' aid' tid' hold)
    · match k, hk with
      | 0, hk => exact absurd (getq_pair_zero hk) (by simp)
      | 1, hk => exact absurd (getq_pair_one hk) (by simp)
      | n + 2, hk => exact Option.noConfusion hk
  case linkOrder =>
    intro i w' uid' mid' hi
    rcases getq_append_cases hi with ⟨_, hold⟩ | ⟨k, rfl, hk⟩
    · exact linkOrderAt_lift (h.linkOrder i w' uid' mid' hold)
    · match k, hk with
      | 0, hk => exact absurd (getq_pair_zero hk) (by simp)
      | 1, hk =>
          have he := getq_pair_one hk
          have hw : w' = w ∧ uid' = uid ∧ mid' = mid := by
            simpa [Event.link.injEq] using he
          obtain ⟨ie, aid, tid, hlt, hie⟩ := hemit
          refine ⟨ie, t.length, hlt, by omega, ⟨aid, tid, ?_⟩, ?_⟩
          · rw [hw.1, hw.2.2]
            exact traceOrd_lift hie
          · rw [hw.1, hw.2.1]
            have h0 := getq_append_add t
              [Event.resolve w uid, Event.link w uid mid] 0
            simpa using h0
      | n + 2, hk => exact Option.noConfusion hk

/-- Appending the whole reaction block of one message. -/
theorem traceOrd_append_react {w mid : Nat} :
    ∀ (us : List RUser) (t : List Event), TraceOrd t →
    (∃ i aid tid, i < t.length ∧
      t.get? i = some (Event.emit w mid aid tid)) →
    TraceOrd (t ++ reactTraceAux w mid us) := by
  intro us
  induction us with
  | nil =>
      intro t h hemit
      simpa [reactTraceAux] using h
  | cons u rest ih =>
      intro t h hemit
      have hpair : TraceOrd
          (t ++ [Event.resolve w u.id, Event.link w u.id mid]) :=
        traceOrd_append_pair h hemit
      have heq : t ++ reactTraceAux w mid (u :: rest) =
          (t ++ [Event.resolve w u.id, Event.link w u.id mid]) ++
            reactTraceAux w mid rest := by
        simp [reactTraceAux]
      rw [heq]
      refine ih _ hpair ?_
      obtain ⟨i, aid, tid, hlt, hi⟩ := hemit
      refine ⟨i, aid, tid, ?_, traceOrd_lift hi⟩
      rw [List.length_append]
      exact Nat.lt_of_lt_of_le hlt (Nat.le_add_right _ _)

theorem getq_map_put {seeds : List Channel} {n j : Nat} {x : Event}
    (h : (seeds.map (fun c => Event.put n c.cid)).get? j = some x) :
    ∃ c : Channel, x = Event.put n c.cid := by
  rw [List.get?_map] at h
  cases hc : seeds.get? j with
  | none => rw [hc] at h; cases h
  | some c => rw [hc] at h; exact ⟨c, (Option.some.inj h).symm⟩

/-- The seed trace contains only put events. -/
theorem traceOrd_init (seeds : List Channel) (n : Nat) :
    TraceOrd (seeds.map (fun c => Event.put n c.cid)) := by
  constructor
  case emitOrder =>
    intro j w' mid' aid' tid' hj
    obtain ⟨c, hc⟩ := getq_map_put hj
    exact absurd hc (by simp)
  case linkOrder =>
    intro i w' uid' mid' hi
    obtain ⟨c, hc⟩ := getq_map_put hi
    exact absurd hc (by simp)

/-! ### The crawl invariant -/

/-- Message `m` (with optional thread `th`) of channel `c` has been
fully processed: its row is stored, every qualifying reactor's pin row
is stored, and the disclosed thread has been enqueued. -/
def itemProcessed (s : St) (c : Channel) (m : Msg) (th : Option Channel) : Prop :=
  msgRow c m ∈ s.messages ∧
  (∀ u ∈ get_reacting_users m.reactions, (u.id, m.mid) ∈ s.pins) ∧
  (∀ tc : Channel, th = some tc → tc ∈ s.enqueued)

/-- All messages of `c` strictly before position `k` are fully
processed. -/
def itemsDoneBelow (s : St) (c : Channel) (k : Nat) : Prop :=
  ∀ j, j < k → ∀ m th, c.items.get? j = some (m, th) → itemProcessed s c m th

/-- Soundness of one worker's control position with respect to the
global state. -/
def pcOK (s : St) (w : Nat) : PC → Prop
  | PC.idle => True
  | PC.failed _ _ => True
  | PC.fetchMsg c k => itemsDoneBelow s c k
  | PC.gotThread c k => itemsDoneBelow s c k ∧
      ∃ m t, c.items.get? k = some (m, some t)
  | PC.postEmit c k => itemsDoneBelow s c k ∧
      ∃ m th, c.items.get? k = some (m, th) ∧
        msgRow c m ∈ s.messages ∧
        (∀ tc : Channel, th = some tc → tc ∈ s.enqueued) ∧
        ∃ j aid tid, j < s.trace.length ∧
          s.trace.get? j = some (Event.emit w m.mid aid tid)

/-- The inductive invariant of the crawl, preserved by every `Step`
under every interleaving. -/
structure CrawlInv (s : St) : Prop where
  acct : s.enqueued.Perm (s.doneChannels ++ s.queue ++ activeChannels s.pcs)
  unf : s.unfinished + s.doneChannels.length = s.enqueued.length
  nodupIds : (s.authors.map Actor.id).Nodup
  regObserved : ∀ a ∈ s.authors,
      a.id ∈ s.messages.map MsgRecord.author ∨ a.id ∈ s.pins.map Prod.fst
  msgAuthorsReg : ∀ r ∈ s.messages, r.author ∈ s.authors.map Actor.id
  pinUsersReg : ∀ p ∈ s.pins, p.1 ∈ s.authors.map Actor.id
  doneFull : ∀ c ∈ s.doneChannels, ∀ mt ∈ c.items,
      itemProcessed s c mt.1 mt.2
  pcsOK : ∀ w p, s.pcs.get? w = some p → pcOK s w p
  trOrd : TraceOrd s.trace
  pinsProv : ∀ p ∈ s.pins, ∃ c ∈ s.enqueued, ∃ m th,
      (m, th) ∈ c.items ∧ m.mid = p.2 ∧
      ∃ u ∈ get_reacting_users m.reactions, u.id = p.1

theorem itemProcessed_mono {s s' : St} {c : Channel} {m : Msg}
    {th : Option Channel}
    (hm : ∀ x, x ∈ s.messages → x ∈ s'.messages)
    (hp : ∀ x, x ∈ s.pins → x ∈ s'.pins)
    (he : ∀ x, x ∈ s.enqueued → x ∈ s'.enqueued) :
    itemProcessed s c m th → itemProcessed s' c m th := by
  rintro ⟨h1, h2, h3⟩
  exact ⟨hm _ h1, fun u hu => hp _ (h2 u hu), fun tc htc => he _ (h3 tc htc)⟩

theorem itemsDoneBelow_mono {s s' : St} {c : Channel} {k : Nat}
    (hm : ∀ x, x ∈ s.messages → x ∈ s'.messages)
    (hp : ∀ x, x ∈ s.pins → x ∈ s'.pins)
    (he : ∀ x, x ∈ s.enqueued → x ∈ s'.enqueued) :
    itemsDoneBelow s c k → itemsDoneBelow s' c k := by
  intro h j hj m th hget
  exact itemProcessed_mono hm hp he (h j hj m th hget)

theorem pcOK_mono {s s' : St} {w : Nat} {p : PC}
    (hm : ∀ x, x ∈ s.messages → x ∈ s'.messages)
    (hp : ∀ x, x ∈ s.pins → x ∈ s'.pins)
    (he : ∀ x, x ∈ s.enqueued → x ∈ s'.enqueued)
    (ht : ∃ d, s'.trace = s.trace ++ d) :
    pcOK s w p → pcOK s' w p := by
  cases p with
  | idle => intro h; trivial
  | failed c e => intro h; trivial
  | fetchMsg c k => exact itemsDoneBelow_mono hm hp he
  | gotThread c k =>
      rintro ⟨h1, h2⟩
      exact ⟨itemsDoneBelow_mono hm hp he h1, h2⟩
  | postEmit c k =>
      rintro ⟨h1, m, th, hget, hrow, hth, j, aid, tid, hjlt, hj⟩
      obtain ⟨d, hd⟩ := ht
      refine ⟨itemsDoneBelow_mono hm hp he h1, m, th, hget, hm _ hrow,
        fun tc htc => he _ (hth tc htc), j, aid, tid, ?_, ?_⟩
      · rw [hd, List.length_append]
        exact Nat.lt_of_lt_of_le hjlt (Nat.le_add_right _ _)
      · rw [hd]
        exact traceOrd_lift hj

theorem crawlInv_get {s : St} (hInv : CrawlInv s) {i : Nat} {c : Channel}
    {rest : List Channel}
    (hw : s.pcs.get? i = some PC.idle) (hq : s.queue = c :: rest) :
    CrawlInv { s with
      queue := rest
      pcs := s.pcs.set i (PC.fetchMsg c 0) } := by
  obtain ⟨acct, unf, nodupIds, regObserved, msgAuthorsReg, pinUsersReg,
    doneFull, pcsOK, trOrd, pinsProv⟩ := hInv
  obtain ⟨u, v, hA, hA'⟩ :=
    filterMap_set_split PC.holding s.pcs i PC.idle hw (PC.fetchMsg c 0)
  simp only [PC.holding, Option.toList] at hA hA'
  refine ⟨?_, ?_, ?_, ?_, ?_, ?_, ?_, ?_, ?_, ?_⟩
  · show s.enqueued.Perm (s.doneChannels ++ rest ++
      activeChannels (s.pcs.set i (PC.fetchMsg c 0)))
    have hAC : activeChannels s.pcs = u ++ v := by
      simpa [activeChannels] using hA
    have hAC' : activeChannels (s.pcs.set i (PC.fetchMsg c 0)) = u ++ [c] ++ v := by
      simpa [activeChannels] using hA'
    rw [hAC', ]
    rw [hq, hAC] at acct
    refine acct.trans ?_
    rw [← Multiset.coe_eq_coe]
    simp only [← Multiset.coe_add, ← Multiset.cons_coe, Multiset.coe_singleton,
      ← Multiset.singleton_add]
    abel
  · exact unf
  · exact nodupIds
  · exact regObserved
  · exact msgAuthorsReg
  · exact pinUsersReg
  · exact doneFull
  · show ∀ w p, (s.pcs.set i (PC.fetchMsg c 0)).get? w = some p →
      pcOK { s with queue := rest, pcs := s.pcs.set i (PC.fetchMsg c 0) } w p
    intro w p hwp
    by_cases hwi : i = w
    · subst hwi
      rw [getq_set_self _ _ _ (getq_some_lt hw)] at hwp
      have hp : PC.fetchMsg c 0 = p := Option.some.inj hwp
      rw [← hp]
      intro j hj m th hget
      omega
    · rw [getq_set_other _ _ _ _ hwi] at hwp
      refine pcOK_mono (fun x h => h) (fun x h => h) (fun x h => h)
        ⟨[], (List.append_nil _).symm⟩ (pcsOK w p hwp)
  · exact trOrd
  · exact pinsProv

theorem crawlInv_msgPlain {s : St} (hInv : CrawlInv s) {i : Nat} {c : Channel}
    {k : Nat} {m : Msg}
    (hw : s.pcs.get? i = some (PC.fetchMsg c k))
    (hm : c.items.get? k = some (m, none)) :
    CrawlInv { s with
      authors := registryInsert s.authors m.author
      messages := s.messages ++ [msgRow c m]
      trace := s.trace ++
        [Event.resolve i m.author.id, Event.emit i m.mid m.author.id none]
      pcs := s.pcs.set i (PC.postEmit c k) } := by
  obtain ⟨acct, unf, nodupIds, regObserved, msgAuthorsReg, pinUsersReg,
    doneFull, pcsOK, trOrd, pinsProv⟩ := hInv
  obtain ⟨u, v, hA, hA'⟩ :=
    filterMap_set_split PC.holding s.pcs i (PC.fetchMsg c k) hw (PC.postEmit c k)
  simp only [PC.holding, Option.toList] at hA hA'
  have hAC : activeChannels (s.pcs.set i (PC.postEmit c k)) = activeChannels s.pcs := by
    show (s.pcs.set i (PC.postEmit c k)).filterMap PC.holding =
      s.pcs.filterMap PC.holding
    rw [hA, hA']
  refine ⟨?_, ?_, ?_, ?_, ?_, ?_, ?_, ?_, ?_, ?_⟩
  · show s.enqueued.Perm (s.doneChannels ++ s.queue ++
      activeChannels (s.pcs.set i (PC.postEmit c k)))
    rw [hAC]
    exact acct
  · exact unf
  · exact registryInsert_nodup nodupIds
  · intro a ha
    rcases mem_registryInsert ha with hold | heq
    · rcases regObserved a hold with h1 | h2
      · exact Or.inl (by
          rw [List.map_append]
          exact List.mem_append_left _ h1)
      · exact Or.inr h2
    · refine Or.inl ?_
      rw [heq]
      rw [List.map_append]
      refine List.mem_append_right _ ?_
      show (create_user m.author).id ∈ [msgRow c m].map MsgRecord.author
      simp [create_user, msgRow]
  · intro r hr
    rcases List.mem_append.mp hr with hold | hnew
    · exact registryInsert_ids_sup (msgAuthorsReg r hold)
    · have : r = msgRow c m := List.mem_singleton.mp hnew
      rw [this]
      show m.author.id ∈ (registryInsert s.authors m.author).map Actor.id
      exact registryInsert_id_mem s.authors m.author
  · intro p hp
    exact registryInsert_ids_sup (pinUsersReg p hp)
  · intro c' hc' mt hmt
    exact itemProcessed_mono (fun x h => List.mem_append_left _ h)
      (fun x h => h) (fun x h => h) (doneFull c' hc' mt hmt)
  · intro w p hwp
    by_cases hwi : i = w
    · subst hwi
      rw [getq_set_self _ _ _ (getq_some_lt hw)] at hwp
      have hp : PC.postEmit c k = p := Option.some.inj hwp
      rw [← hp]
      show itemsDoneBelow _ c k ∧ _
      constructor
      · exact itemsDoneBelow_mono (fun x h => List.mem_append_left _ h)
          (fun x h => h) (fun x h => h) (pcsOK i (PC.fetchMsg c k) hw)
      · refine ⟨m, none, hm, ?_, ?_, ?_⟩
        · exact List.mem_append_right _ (List.mem_singleton.mpr rfl)
        · intro tc htc
          exact Option.noConfusion htc
        · refine ⟨s.trace.length + 1, m.author.id, none, ?_, ?_⟩
          · show s.trace.length + 1 < (s.trace ++
              [Event.resolve i m.author.id,
               Event.emit i m.mid m.author.id none]).length
            rw [List.length_append]
            simp
          · have h0 := getq_append_add s.trace
              [Event.resolve i m.author.id,
               Event.emit i m.mid m.author.id none] 1
            simpa using h0
    · rw [getq_set_other _ _ _ _ hwi] at hwp
      refine pcOK_mono (fun x h => List.mem_append_left _ h) (fun x h => h)
        (fun x h => h) ⟨_, rfl⟩ (pcsOK w p hwp)
  · exact traceOrd_append_plain i m.mid m.author.id trOrd
  · exact pinsProv

theorem crawlInv_msgThread {s : St} (hInv : CrawlInv s) {i : Nat} {c : Channel}
    {k : Nat} {m : Msg} {t : Channel}
    (hw : s.pcs.get? i = some (PC.fetchMsg c k))
    (hm : c.items.get? k = some (m, some t)) :
    CrawlInv { s with pcs := s.pcs.set i (PC.gotThread c k) } := by
  obtain ⟨acct, unf, nodupIds, regObserved, msgAuthorsReg, pinUsersReg,
    doneFull, pcsOK, trOrd, pinsProv⟩ := hInv
  obtain ⟨u, v, hA, hA'⟩ :=
    filterMap_set_split PC.holding s.pcs i (PC.fetchMsg c k) hw (PC.gotThread c k)
  simp only [PC.holding, Option.toList] at hA hA'
  have hAC : activeChannels (s.pcs.set i (PC.gotThread c k)) =
      activeChannels s.pcs := by
    show (s.pcs.set i (PC.gotThread c k)).filterMap PC.holding =
      s.pcs.filterMap PC.holding
    rw [hA, hA']
  refine ⟨?_, ?_, ?_, ?_, ?_, ?_, ?_, ?_, ?_, ?_⟩
  · show s.enqueued.Perm (s.doneChannels ++ s.queue ++
      activeChannels (s.pcs.set i (PC.gotThread c k)))
    rw [hAC]
    exact acct
  · exact unf
  · exact nodupIds
  · exact regObserved
  · exact msgAuthorsReg
  · exact pinUsersReg
  · exact doneFull
  · intro w p hwp
    by_cases hwi : i = w
    · subst hwi
      rw [getq_set_self _ _ _ (getq_some_lt hw)] at hwp
      have hp : PC.gotThread c k = p := Option.some.inj hwp
      rw [← hp]
      exact ⟨pcsOK i (PC.fetchMsg c k) hw, m, t, hm⟩
    · rw [getq_set_other _ _ _ _ hwi] at hwp
      refine pcOK_mono (fun x h => h) (fun x h => h) (fun x h => h)
        ⟨[], (List.append_nil _).symm⟩ (pcsOK w p hwp)
  · exact trOrd
  · exact pinsProv

theorem crawlInv_threadBlock {s : St} (hInv : CrawlInv s) {i : Nat}
    {c : Channel} {k : Nat} {m : Msg} {t : Channel}
    (hw : s.pcs.get? i = some (PC.gotThread c k))
    (hm : c.items.get? k = some (m, some t)) :
    CrawlInv { s with
      queue := s.queue ++ [t]
      unfinished := s.unfinished + 1
      enqueued := s.enqueued ++ [t]
      authors := registryInsert s.authors m.author
      messages := s.messages ++ [msgRow c m]
      trace := s.trace ++
        [Event.put i t.cid, Event.resolve i m.author.id,
         Event.emit i m.mid m.author.id (some t.cid)]
      pcs := s.pcs.set i (PC.postEmit c k) } := by
  obtain ⟨acct, unf, nodupIds, regObserved, msgAuthorsReg, pinUsersReg,
    doneFull, pcsOK, trOrd, pinsProv⟩ := hInv
  obtain ⟨u, v, hA, hA'⟩ :=
    filterMap_set_split PC.holding s.pcs i (PC.gotThread c k) hw (PC.postEmit c k)
  simp only [PC.holding, Option.toList] at hA hA'
  have hAC : activeChannels (s.pcs.set i (PC.postEmit c k)) =
      activeChannels s.pcs := by
    show (s.pcs.set i (PC.postEmit c k)).filterMap PC.holding =
      s.pcs.filterMap PC.holding
    rw [hA, hA']
  refine ⟨?_, ?_, ?_, ?_, ?_, ?_, ?_, ?_, ?_, ?_⟩
  · show (s.enqueued ++ [t]).Perm (s.doneChannels ++ (s.queue ++ [t]) ++
      activeChannels (s.pcs.set i (PC.postEmit c k)))
    rw [hAC]
    refine (acct.append_right [t]).trans ?_
    rw [← Multiset.coe_eq_coe]
    simp only [← Multiset.coe_add, ← Multiset.cons_coe, Multiset.coe_singleton,
      ← Multiset.singleton_add]
    abel
  · show s.unfinished + 1 + s.doneChannels.length = (s.enqueued ++ [t]).length
    rw [List.length_append]
    simp only [List.length_cons, List.length_nil]
    omega
  · exact registryInsert_nodup nodupIds
  · intro a ha
    rcases mem_registryInsert ha with hold | heq
    · rcases regObserved a hold with h1 | h2
      · exact Or.inl (by
          rw [List.map_append]
          exact List.mem_append_left _ h1)
      · exact Or.inr h2
    · refine Or.inl ?_
      rw [heq, List.map_append]
      refine List.mem_append_right _ ?_
      show (create_user m.author).id ∈ [msgRow c m].map MsgRecord.author
      simp [create_user, msgRow]
  · intro r hr
    rcases List.mem_append.mp hr with hold | hnew
    · exact registryInsert_ids_sup (msgAuthorsReg r hold)
    · have : r = msgRow c m := List.mem_singleton.mp hnew
      rw [this]
      show m.author.id ∈ (registryInsert s.authors m.author).map Actor.id
      exact registryInsert_id_mem s.authors m.author
  · intro p hp
    exact registryInsert_ids_sup (pinUsersReg p hp)
  · intro c' hc' mt hmt
    exact itemProcessed_mono (fun x h => List.mem_append_left _ h)
      (fun x h => h) (fun x h => List.mem_append_left _ h)
      (doneFull c' hc' mt hmt)
  · intro w p hwp
    by_cases hwi : i = w
    · subst hwi
      rw [getq_set_self _ _ _ (getq_some_lt hw)] at hwp
      have hp : PC.postEmit c k = p := Option.some.inj hwp
      rw [← hp]
      show itemsDoneBelow _ c k ∧ _
      constructor
      · have hold := pcsOK i (PC.gotThread c k) hw
        exact itemsDoneBelow_mono (fun x h => List.mem_append_left _ h)
          (fun x h => h) (fun x h => List.mem_append_left _ h) hold.1
      · refine ⟨m, some t, hm, ?_, ?_, ?_⟩
        · exact List.mem_append_right _ (List.mem_singleton.mpr rfl)
        · intro tc htc
          have : t = tc := Option.some.inj htc
          rw [← this]
          exact List.mem_append_right _ (List.mem_singleton.mpr rfl)
        · refine ⟨s.trace.length + 2, m.author.id, some t.cid, ?_, ?_⟩
          · show s.trace.length + 2 < (s.trace ++
              [Event.put i t.cid, Event.resolve i m.author.id,
               Event.emit i m.mid m.author.id (some t.cid)]).length
            rw [List.length_append]
            simp
          · have h0 := getq_append_add s.trace
              [Event.put i t.cid, Event.resolve i m.author.id,
               Event.emit i m.mid m.author.id (some t.cid)] 2
            simpa using h0
    · rw [getq_set_other _ _ _ _ hwi] at hwp
      refine pcOK_mono (fun x h => List.mem_append_left _ h) (fun x h => h)
        (fun x h => List.mem_append_left _ h) ⟨_, rfl⟩ (pcsOK w p hwp)
  · exact traceOrd_append_thread i m.mid m.author.id t.cid trOrd
  · intro p hp
    obtain ⟨c', hc', m', th', hmt, hmid, uu, huu, hid⟩ := pinsProv p hp
    exact ⟨c', List.mem_append_left _ hc', m', th', hmt, hmid, uu, huu, hid⟩

theorem crawlInv_reactions {s : St} (hInv : CrawlInv s) {i : Nat}
    {c : Channel} {k : Nat} {m : Msg} {th : Option Channel}
    (hw : s.pcs.get? i = some (PC.postEmit c k))
    (hm : c.items.get? k = some (m, th)) :
    CrawlInv { s with
      authors := registryInsertAll s.authors (get_reacting_users m.reactions)
      pins := s.pins ++ reactionPins m
      trace := s.trace ++ reactTrace i m
      pcs := s.pcs.set i (PC.fetchMsg c (k + 1)) } := by
  obtain ⟨acct, unf, nodupIds, regObserved, msgAuthorsReg, pinUsersReg,
    doneFull, pcsOK, trOrd, pinsProv⟩ := hInv
  obtain ⟨u, v, hA, hA'⟩ :=
    filterMap_set_split PC.holding s.pcs i (PC.postEmit c k) hw
      (PC.fetchMsg c (k + 1))
  simp only [PC.holding, Option.toList] at hA hA'
  have hAC : activeChannels (s.pcs.set i (PC.fetchMsg c (k + 1))) =
      activeChannels s.pcs := by
    show (s.pcs.set i (PC.fetchMsg c (k + 1))).filterMap PC.holding =
      s.pcs.filterMap PC.holding
    rw [hA, hA']
  obtain ⟨hbelow, m0, th0, hget0, hrow0, hth0, j0, aid0, tid0, hjlt0, hj0⟩ :=
    pcsOK i (PC.postEmit c k) hw
  have hpair : (m0, th0) = (m, th) := Option.some.inj (hget0.symm.trans hm)
  have hm1 : m0 = m := congrArg Prod.fst hpair
  have hth1 : th0 = th := congrArg Prod.snd hpair
  rw [hm1] at hrow0 hj0
  rw [hth1] at hth0
  refine ⟨?_, ?_, ?_, ?_, ?_, ?_, ?_, ?_, ?_, ?_⟩
  · show s.enqueued.Perm (s.doneChannels ++ s.queue ++
      activeChannels (s.pcs.set i (PC.fetchMsg c (k + 1))))
    rw [hAC]
    exact acct
  · exact unf
  · exact registryInsertAll_nodup nodupIds
  · intro a ha
    rcases mem_registryInsertAll ha with hold | ⟨uu, huu, heq⟩
    · rcases regObserved a hold with h1 | h2
      · exact Or.inl h1
      · exact Or.inr (by
          rw [List.map_append]
          exact List.mem_append_left _ h2)
    · have hmem : (uu.id, m.mid) ∈ reactionPins m :=
        List.mem_map.mpr ⟨uu, huu, rfl⟩
      refine Or.inr ?_
      rw [heq, List.map_append]
      refine List.mem_append_right _ ?_
      exact List.mem_map.mpr ⟨(uu.id, m.mid), hmem, rfl⟩
  · intro r hr
    exact registryInsertAll_ids_sup (msgAuthorsReg r hr)
  · intro p hp
    rcases List.mem_append.mp hp with hold | hnew
    · exact registryInsertAll_ids_sup (pinUsersReg p hold)
    · obtain ⟨uu, huu, heq⟩ := List.mem_map.mp hnew
      rw [← heq]
      show uu.id ∈ (registryInsertAll s.authors
        (get_reacting_users m.reactions)).map Actor.id
      exact registryInsertAll_id_mem huu
  · intro c' hc' mt hmt
    exact itemProcessed_mono (s := s) (fun x h => h)
      (fun x h => List.mem_append_left _ h) (fun x h => h)
      (doneFull c' hc' mt hmt)
  · intro w p hwp
    by_cases hwi : i = w
    · subst hwi
      rw [getq_set_self _ _ _ (getq_some_lt hw)] at hwp
      have hp : PC.fetchMsg c (k + 1) = p := Option.some.inj hwp
      rw [← hp]
      show itemsDoneBelow _ c (k + 1)
      intro j hj m' th' hget
      by_cases hjk : j < k
      · exact itemProcessed_mono (s := s) (fun x h => h)
          (fun x h => List.mem_append_left _ h) (fun x h => h)
          (hbelow j hjk m' th' hget)
      · have hjeq : j = k := by omega
        rw [hjeq] at hget
        have hpair2 : (m, th) = (m', th') := Option.some.inj (hm.symm.trans hget)
        have hm2 : m = m' := congrArg Prod.fst hpair2
        have hth2 : th = th' := congrArg Prod.snd hpair2
        rw [← hm2, ← hth2]
        refine ⟨hrow0, ?_, ?_⟩
        · intro uu huu
          refine List.mem_append_right _ ?_
          exact List.mem_map.mpr ⟨uu, huu, rfl⟩
        · intro tc htc
          exact hth0 tc htc
    · rw [getq_set_other _ _ _ _ hwi] at hwp
      refine pcOK_mono (s := s) (fun x h => h)
        (fun x h => List.mem_append_left _ h)
        (fun x h => h) ⟨_, rfl⟩ (pcsOK w p hwp)
  · show TraceOrd (s.trace ++ reactTrace i m)
    exact traceOrd_append_react (get_reacting_users m.reactions) s.trace trOrd
      ⟨j0, aid0, tid0, hjlt0, hj0⟩
  · intro p hp
    rcases List.mem_append.mp hp with hold | hnew
    · exact pinsProv p hold
    · obtain ⟨uu, huu, heq⟩ := List.mem_map.mp hnew
      have hcact : c ∈ activeChannels s.pcs :=
        List.mem_filterMap.mpr ⟨PC.postEmit c k, getq_mem hw, rfl⟩
      have hcenq : c ∈ s.enqueued :=
        acct.mem_iff.mpr (List.mem_append.mpr (Or.inr hcact))
      refine ⟨c, hcenq, m, th, getq_mem hm, ?_, uu, huu, ?_⟩
      · rw [← heq]
        rfl
      · rw [← heq]
        rfl

theorem crawlInv_finish {s : St} (hInv : CrawlInv s) {i : Nat} {c : Channel}
    {k : Nat}
    (hw : s.pcs.get? i = some (PC.fetchMsg c k))
    (hm : c.items.get? k = none) :
    CrawlInv { s with
      unfinished := s.unfinished - 1
      doneChannels := s.doneChannels ++ [c]
      trace := s.trace ++ [Event.markDone i c.cid]
      pcs := s.pcs.set i PC.idle } := by
  obtain ⟨acct, unf, nodupIds, regObserved, msgAuthorsReg, pinUsersReg,
    doneFull, pcsOK, trOrd, pinsProv⟩ := hInv
  obtain ⟨u, v, hA, hA'⟩ :=
    filterMap_set_split PC.holding s.pcs i (PC.fetchMsg c k) hw PC.idle
  simp only [PC.holding, Option.toList] at hA hA'
  have hAC : activeChannels s.pcs = u ++ [c] ++ v := by
    simpa [activeChannels] using hA
  have hAC' : activeChannels (s.pcs.set i PC.idle) = u ++ v := by
    show (s.pcs.set i PC.idle).filterMap PC.holding = u ++ v
    simpa using hA'
  have hlen := acct.length_eq
  rw [hAC] at hlen acct
  simp only [List.length_append, List.length_cons, List.length_nil] at hlen
  refine ⟨?_, ?_, ?_, ?_, ?_, ?_, ?_, ?_, ?_, ?_⟩
  · show s.enqueued.Perm ((s.doneChannels ++ [c]) ++ s.queue ++
      activeChannels (s.pcs.set i PC.idle))
    rw [hAC']
    refine acct.trans ?_
    rw [← Multiset.coe_eq_coe]
    simp only [← Multiset.coe_add, ← Multiset.cons_coe, Multiset.coe_singleton,
      ← Multiset.singleton_add]
    abel
  · show s.unfinished - 1 + (s.doneChannels ++ [c]).length = s.enqueued.length
    rw [List.length_append]
    simp only [List.length_cons, List.length_nil]
    omega
  · exact nodupIds
  · exact regObserved
  · exact msgAuthorsReg
  · exact pinUsersReg
  · intro c' hc' mt hmt
    rcases List.mem_append.mp hc' with hold | hnew
    · exact doneFull c' hold mt hmt
    · have hcc : c' = c := List.mem_singleton.mp hnew
      rw [hcc] at hmt
      have hklen : c.items.length ≤ k := List.get?_eq_none.mp hm
      obtain ⟨j, hj⟩ := mem_getq hmt
      have hjk : j < k := Nat.lt_of_lt_of_le (getq_some_lt hj) hklen
      have hproc := pcsOK i (PC.fetchMsg c k) hw j hjk mt.1 mt.2 (by
        rw [hj])
      rw [hcc]
      exact hproc
  · intro w p hwp
    by_cases hwi : i = w
    · subst hwi
      rw [getq_set_self _ _ _ (getq_some_lt hw)] at hwp
      have hp : PC.idle = p := Option.some.inj hwp
      rw [← hp]
      trivial
    · rw [getq_set_other _ _ _ _ hwi] at hwp
      refine pcOK_mono (s := s) (fun x h => h) (fun x h => h) (fun x h => h)
        ⟨_, rfl⟩ (pcsOK w p hwp)
  · exact traceOrd_append_markDone i c.cid trOrd
  · exact pinsProv

theorem crawlInv_failFetch {s : St} (hInv : CrawlInv s) {i : Nat}
    {c : Channel} {k : Nat} {e : Nat}
    (hw : s.pcs.get? i = some (PC.fetchMsg c k)) :
    CrawlInv { s with pcs := s.pcs.set i (PC.failed c e) } := by
  obtain ⟨acct, unf, nodupIds, regObserved, msgAuthorsReg, pinUsersReg,
    doneFull, pcsOK, trOrd, pinsProv⟩ := hInv
  obtain ⟨u, v, hA, hA'⟩ :=
    filterMap_set_split PC.holding s.pcs i (PC.fetchMsg c k) hw (PC.failed c e)
  simp only [PC.holding, Option.toList] at hA hA'
  have hAC : activeChannels (s.pcs.set i (PC.failed c e)) =
      activeChannels s.pcs := by
    show (s.pcs.set i (PC.failed c e)).filterMap PC.holding =
      s.pcs.filterMap PC.holding
    rw [hA, hA']
  refine ⟨?_, unf, nodupIds, regObserved, msgAuthorsReg, pinUsersReg,
    doneFull, ?_, trOrd, pinsProv⟩
  · show s.enqueued.Perm (s.doneChannels ++ s.queue ++
      activeChannels (s.pcs.set i (PC.failed c e)))
    rw [hAC]
    exact acct
  · intro w p hwp
    by_cases hwi : i = w
    · subst hwi
      rw [getq_set_self _ _ _ (getq_some_lt hw)] at hwp
      have hp : PC.failed c e = p := Option.some.inj hwp
      rw [← hp]
      trivial
    · rw [getq_set_other _ _ _ _ hwi] at hwp
      refine pcOK_mono (s := s) (fun x h => h) (fun x h => h) (fun x h => h)
        ⟨[], (List.append_nil _).symm⟩ (pcsOK w p hwp)

theorem crawlInv_failThread {s : St} (hInv : CrawlInv s) {i : Nat}
    {c : Channel} {k : Nat} {e : Nat}
    (hw : s.pcs.get? i = some (PC.gotThread c k)) :
    CrawlInv { s with pcs := s.pcs.set i (PC.failed c e) } := by
  obtain ⟨acct, unf, nodupIds, regObserved, msgAuthorsReg, pinUsersReg,
    doneFull, pcsOK, trOrd, pinsProv⟩ := hInv
  obtain ⟨u, v, hA, hA'⟩ :=
    filterMap_set_split PC.holding s.pcs i (PC.gotThread c k) hw (PC.failed c e)
  simp only [PC.holding, Option.toList] at hA hA'
  have hAC : activeChannels (s.pcs.set i (PC.failed c e)) =
      activeChannels s.pcs := by
    show (s.pcs.set i (PC.failed c e)).filterMap PC.holding =
      s.pcs.filterMap PC.holding
    rw [hA, hA']
  refine ⟨?_, unf, nodupIds, regObserved, msgAuthorsReg, pinUsersReg,
    doneFull, ?_, trOrd, pinsProv⟩
  · show s.enqueued.Perm (s.doneChannels ++ s.queue ++
      activeChannels (s.pcs.set i (PC.failed c e)))
    rw [hAC]
    exact acct
  · intro w p hwp
    by_cases hwi : i = w
    · subst hwi
      rw [getq_set_self _ _ _ (getq_some_lt hw)] at hwp
      have hp : PC.failed c e = p := Option.some.inj hwp
      rw [← hp]
      trivial
    · rw [getq_set_other _ _ _ _ hwi] at hwp
      refine pcOK_mono (s := s) (fun x h => h) (fun x h => h) (fun x h => h)
        ⟨[], (List.append_nil _).symm⟩ (pcsOK w p hwp)

theorem crawlInv_failReact {s : St} (hInv : CrawlInv s) {i : Nat}
    {c : Channel} {k : Nat} {e : Nat}
    (hw : s.pcs.get? i = some (PC.postEmit c k)) :
    CrawlInv { s with pcs := s.pcs.set i (PC.failed c e) } := by
  obtain ⟨acct, unf, nodupIds, regObserved, msgAuthorsReg, pinUsersReg,
    doneFull, pcsOK, trOrd, pinsProv⟩ := hInv
  obtain ⟨u, v, hA, hA'⟩ :=
    filterMap_set_split PC.holding s.pcs i (PC.postEmit c k) hw (PC.failed c e)
  simp only [PC.holding, Option.toList] at hA hA'
  have hAC : activeChannels (s.pcs.set i (PC.failed c e)) =
      activeChannels s.pcs := by
    show (s.pcs.set i (PC.failed c e)).filterMap PC.holding =
      s.pcs.filterMap PC.holding
    rw [hA, hA']
  refine ⟨?_, unf, nodupIds, regObserved, msgAuthorsReg, pinUsersReg,
    doneFull, ?_, trOrd, pinsProv⟩
  · show s.enqueued.Perm (s.doneChannels ++ s.queue ++
      activeChannels (s.pcs.set i (PC.failed c e)))
    rw [hAC]
    exact acct
  · intro w p hwp
    by_cases hwi : i = w
    · subst hwi
      rw [getq_set_self _ _ _ (getq_some_lt hw)] at hwp
      have hp : PC.failed c e = p := Option.some.inj hwp
      rw [← hp]
      trivial
    · rw [getq_set_other _ _ _ _ hwi] at hwp
      refine pcOK_mono (s := s) (fun x h => h) (fun x h => h) (fun x h => h)
        ⟨[], (List.append_nil _).symm⟩ (pcsOK w p hwp)

/-- The invariant is preserved by every step. -/
theorem crawlInv_step {s s' : St} (hInv : CrawlInv s) (hst : Step s s') :
    CrawlInv s' := by
  cases hst with
  | get i c rest hw hq => exact crawlInv_get hInv hw hq
  | msgPlain i c k m hw hm => exact crawlInv_msgPlain hInv hw hm
  | msgThread i c k m t hw hm => exact crawlInv_msgThread hInv hw hm
  | threadBlock i c k m t hw hm => exact crawlInv_threadBlock hInv hw hm
  | reactions i c k m th hw hm => exact crawlInv_reactions hInv hw hm
  | finish i c k hw hm => exact crawlInv_finish hInv hw hm
  | failFetch i c k e hw => exact crawlInv_failFetch hInv hw
  | failThread i c k e hw => exact crawlInv_failThread hInv hw
  | failReact i c k e hw => exact crawlInv_failReact hInv hw

theorem activeChannels_replicate_idle (n : Nat) :
    activeChannels (List.replicate n PC.idle) = [] := by
  induction n with
  | zero => rfl
  | succ k ih =>
      show activeChannels (PC.idle :: List.replicate k PC.idle) = []
      simp only [activeChannels, List.filterMap_cons] at ih ⊢
      exact ih

theorem getq_replicate_idle {n w : Nat} {p : PC}
    (h : (List.replicate n PC.idle).get? w = some p) : p = PC.idle :=
  List.eq_of_mem_replicate (getq_mem h)

/-- The invariant holds at the start of every crawl. -/
theorem crawlInv_init (seeds : List Channel) (n : Nat) :
    CrawlInv (init seeds n) := by
  refine ⟨?_, ?_, ?_, ?_, ?_, ?_, ?_, ?_, ?_, ?_⟩
  · show seeds.Perm ([] ++ seeds ++ activeChannels (List.replicate n PC.idle))
    rw [activeChannels_replicate_idle]
    simp
  · show seeds.length + ([] : List Channel).length = seeds.length
    simp
  · show (([] : List Actor).map Actor.id).Nodup
    simp
  · intro a ha
    cases ha
  · intro r hr
    cases hr
  · intro p hp
    cases hp
  · intro c hc
    cases hc
  · intro w p hwp
    have := getq_replicate_idle hwp
    rw [this]
    trivial
  · exact traceOrd_init seeds n
  · intro p hp
    cases hp

/-- The invariant holds in every reachable state of every crawl. -/
theorem crawlInv_reach {seeds : List Channel} {n : Nat} {s : St}
    (h : Reach (init seeds n) s) : CrawlInv s := by
  induction h with
  | refl => exact crawlInv_init seeds n
  | step hr hst ih => exact crawlInv_step ih hst

/-! ### Coordinator-facing consequences -/

theorem mem_activeChannels {pcs : List PC} {i : Nat} {p : PC} {c : Channel}
    (h : pcs.get? i = some p) (hh : PC.holding p = some c) :
    c ∈ activeChannels pcs :=
  List.mem_filterMap.mpr ⟨p, getq_mem h, hh⟩

/-- A worker's task never reports a clean exit: `channel_worker` is a
`while True` loop, so its coroutine either runs or terminated with an
exception. -/
theorem pcTask_ne_doneOk (p : PC) : PC.task p ≠ TaskState.doneOk := by
  cases p <;> simp [PC.task]

/-- While some worker holds or abandoned a container, the queue is not
drained. -/
theorem failed_not_drained {s : St} (hInv : CrawlInv s) {i : Nat}
    {c : Channel} {e : Nat}
    (hf : s.pcs.get? i = some (PC.failed c e)) : drained s = false := by
  have hact : c ∈ activeChannels s.pcs := mem_activeChannels hf rfl
  have hlen := hInv.acct.length_eq
  rw [List.length_append, List.length_append] at hlen
  have hpos : 0 < (activeChannels s.pcs).length := List.length_pos.mpr
    (fun he => by rw [he] at hact; cases hact)
  have hunf := hInv.unf
  have hne : s.unfinished ≠ 0 := by omega
  simp only [drained]
  simpa using hne

/-- If some worker failed, the first finished worker in creation order
finished with an error. -/
theorem firstDone_of_failed {s : St} {i : Nat} {c : Channel} {e : Nat}
    (hi : s.pcs.get? i = some (PC.failed c e)) :
    ∃ e0 i0 c0, ((s.pcs.map PC.task).filter TaskState.isDone).head? =
      some (TaskState.doneErr e0) ∧
      s.pcs.get? i0 = some (PC.failed c0 e0) := by
  have hmem : TaskState.doneErr e ∈ s.pcs.map PC.task :=
    List.mem_map.mpr ⟨PC.failed c e, getq_mem hi, rfl⟩
  have hmf : TaskState.doneErr e ∈ (s.pcs.map PC.task).filter TaskState.isDone :=
    List.mem_filter.mpr ⟨hmem, by simp [TaskState.isDone]⟩
  cases hfl : (s.pcs.map PC.task).filter TaskState.isDone with
  | nil => rw [hfl] at hmf; cases hmf
  | cons ts tl =>
      have hts : ts ∈ (s.pcs.map PC.task).filter TaskState.isDone := by
        rw [hfl]
        exact List.mem_cons_self ts tl
      have hts2 := List.mem_filter.mp hts
      obtain ⟨p, hp, hpt⟩ := List.mem_map.mp hts2.1
      obtain ⟨i0, hi0⟩ := mem_getq hp
      cases p with
      | failed c0 e0 =>
          refine ⟨e0, i0, c0, ?_, hi0⟩
          have hts3 : ts = TaskState.doneErr e0 := by
            rw [← hpt]
            rfl
          rw [hts3]
          rfl
      | idle =>
          have : ts = TaskState.running := by rw [← hpt]; rfl
          rw [this] at hts2
          simp [TaskState.isDone] at hts2
      | fetchMsg c0 k0 =>
          have : ts = TaskState.running := by rw [← hpt]; rfl
          rw [this] at hts2
          simp [TaskState.isDone] at hts2
      | gotThread c0 k0 =>
          have : ts = TaskState.running := by rw [← hpt]; rfl
          rw [this] at hts2
          simp [TaskState.isDone] at hts2
      | postEmit c0 k0 =>
          have : ts = TaskState.running := by rw [← hpt]; rfl
          rw [this] at hts2
          simp [TaskState.isDone] at hts2

theorem coordinatorOutcome_failed {s : St} {e0 : Nat}
    (hd : drained s = false)
    (hh : ((s.pcs.map PC.task).filter TaskState.isDone).head? =
      some (TaskState.doneErr e0)) (cancelErrs : List Nat) :
    coordinatorOutcome s cancelErrs =
      { outcome := Outcome.failedWith (Err.workerErr e0),
        cancelledRest := false } := by
  simp [coordinatorOutcome, coordinatorDecision, hd, hh]

theorem getq_set_preserve {l : List PC} {i j : Nat} {p0 p1 q : PC}
    (hj : l.get? j = some p0) (hi : l.get? i = some q) (hne : p0 ≠ q) :
    (l.set j p1).get? i = some q := by
  by_cases hji : j = i
  · subst hji
    rw [hj] at hi
    exact absurd (Option.some.inj hi) hne
  · rw [getq_set_other _ _ _ _ hji]
    exact hi

/-- A failed worker never steps again: its coroutine has terminated
with the propagated exception. -/
theorem step_preserves_failed {s s' : St} {i : Nat} {c : Channel} {e : Nat}
    (hst : Step s s') (hf : s.pcs.get? i = some (PC.failed c e)) :
    s'.pcs.get? i = some (PC.failed c e) := by
  cases hst with
  | get j c' rest hw hq =>
      exact getq_set_preserve hw hf (fun h => PC.noConfusion h)
  | msgPlain j c' k m hw hm =>
      exact getq_set_preserve hw hf (fun h => PC.noConfusion h)
  | msgThread j c' k m t hw hm =>
      exact getq_set_preserve hw hf (fun h => PC.noConfusion h)
  | threadBlock j c' k m t hw hm =>
      exact getq_set_preserve hw hf (fun h => PC.noConfusion h)
  | reactions j c' k m th hw hm =>
      exact getq_set_preserve hw hf (fun h => PC.noConfusion h)
  | finish j c' k hw hm =>
      exact getq_set_preserve hw hf (fun h => PC.noConfusion h)
  | failFetch j c' k e' hw =>
      exact getq_set_preserve hw hf (fun h => PC.noConfusion h)
  | failThread j c' k e' hw =>
      exact getq_set_preserve hw hf (fun h => PC.noConfusion h)
  | failReact j c' k e' hw =>
      exact getq_set_preserve hw hf (fun h => PC.noConfusion h)

/-! ### Claims -/

/-- C1: Actor dedup invariant — in every reachable state of every crawl
(any seed set, any worker count, any interleaving), the registry maps
each distinct actor id to exactly one Actor record (its key list has no
duplicates), its key set equals the set of actor ids observed across
all emitted message rows and reaction links, and its size equals the
number of distinct observed ids — never more.  The check-then-insert of
`channel_worker` runs without a suspension point, so no interleaving
can insert two Actors for one id. -/
theorem C1_actor_dedup (seeds : List Channel) (n : Nat) (s : St)
    (h : Reach (init seeds n) s) :
    (s.authors.map Actor.id).Nodup ∧
    (s.authors.map Actor.id).toFinset =
      (s.messages.map MsgRecord.author).toFinset ∪
        (s.pins.map Prod.fst).toFinset ∧
    s.authors.length =
      ((s.messages.map MsgRecord.author).toFinset ∪
        (s.pins.map Prod.fst).toFinset).card := by
  have inv := crawlInv_reach h
  have hset : (s.authors.map Actor.id).toFinset =
      (s.messages.map MsgRecord.author).toFinset ∪
        (s.pins.map Prod.fst).toFinset := by
    ext x
    simp only [List.mem_toFinset, Finset.mem_union]
    constructor
    · intro hx
      obtain ⟨a, ha, hax⟩ := List.mem_map.mp hx
      rw [← hax]
      exact inv.regObserved a ha
    · intro hx
      rcases hx with h1 | h2
      · obtain ⟨r, hr, hrx⟩ := List.mem_map.mp h1
        rw [← hrx]
        exact inv.msgAuthorsReg r hr
      · obtain ⟨p, hp, hpx⟩ := List.mem_map.mp h2
        rw [← hpx]
        exact inv.pinUsersReg p hp
  refine ⟨inv.nodupIds, hset, ?_⟩
  rw [← hset, List.toFinset_card_of_nodup inv.nodupIds, List.length_map]

/-- C2: Drain completeness under dynamic discovery — in every reachable
state, the queue's pending count (`_unfinished_tasks`) equals the
number of `put_nowait` calls minus the number of `task_done` calls,
`join()` returns exactly when that count is zero, and whenever the
drain signal fires every container ever enqueued (seeds and children
discovered mid-flight, transitively) has been marked done. -/
theorem C2_drain_completeness (seeds : List Channel) (n : Nat) (s : St)
    (h : Reach (init seeds n) s) :
    s.unfinished + s.doneChannels.length = s.enqueued.length ∧
    (drained s = true ↔ s.unfinished = 0) ∧
    (drained s = true → ∀ c ∈ s.enqueued, c ∈ s.doneChannels) := by
  have inv := crawlInv_reach h
  refine ⟨inv.unf, by simp [drained], ?_⟩
  intro hd c hc
  have h0 : s.unfinished = 0 := by simpa [drained] using hd
  have hunf := inv.unf
  have hlen := inv.acct.length_eq
  rw [List.length_append, List.length_append] at hlen
  have hqe : s.queue = [] := by
    rw [← List.length_eq_zero]
    omega
  have hae : activeChannels s.pcs = [] := by
    rw [← List.length_eq_zero]
    omega
  have hmem := inv.acct.mem_iff.mp hc
  rw [hqe, hae] at hmem
  simpa using hmem

/-- C3: Fail-fast on worker error — if in any reachable state a worker
terminated with an error (a provider call raised during the crawl of
container `c`), then: the queue never reports drained, the abandoned
container still counts as pending (it sits in the active part of the
accounting, not among the marked-done containers), the worker never
steps again (no retry, no late `task_done`), and — when it is the only
failure — the coordinator's decision at any such state is `Failed` with
exactly that error and without cancelling first, regardless of how many
containers are still queued. -/
theorem C3_fail_fast (seeds : List Channel) (n : Nat) (s : St)
    (h : Reach (init seeds n) s) (i : Nat) (c : Channel) (e : Nat)
    (hf : s.pcs.get? i = some (PC.failed c e)) :
    drained s = false ∧
    c ∈ activeChannels s.pcs ∧
    s.enqueued.Perm (s.doneChannels ++ s.queue ++ activeChannels s.pcs) ∧
    (∀ s' : St, Step s s' → s'.pcs.get? i = some (PC.failed c e)) ∧
    ((∀ j c' e', s.pcs.get? j = some (PC.failed c' e') →
        c' = c ∧ e' = e) →
      ∀ cancelErrs, coordinatorOutcome s cancelErrs =
        { outcome := Outcome.failedWith (Err.workerErr e),
          cancelledRest := false }) := by
  have inv := crawlInv_reach h
  have hd := failed_not_drained inv hf
  refine ⟨hd, mem_activeChannels hf rfl, inv.acct,
    fun s' hst => step_preserves_failed hst hf, ?_⟩
  intro huniq cancelErrs
  obtain ⟨e0, i0, c0, hh, hf0⟩ := firstDone_of_failed hf
  have he0 : e0 = e := (huniq i0 c0 e0 hf0).2
  rw [he0] at hh
  exact coordinatorOutcome_failed hd hh cancelErrs

/-- C4: First-error wins — if two (or more) workers have failed in a
reachable state, the coordinator's decision surfaces exactly one error:
the one of the first finished worker in creation order (the
deterministic pick of `workers_done[0].result()`), independent of the
cancellation errors collected during drain-out; no second error is ever
part of the outcome. -/
theorem C4_first_error_wins (seeds : List Channel) (n : Nat) (s : St)
    (h : Reach (init seeds n) s) (i j : Nat) (ci cj : Channel)
    (ei ej : Nat) (hij : i ≠ j)
    (hi : s.pcs.get? i = some (PC.failed ci ei))
    (hj : s.pcs.get? j = some (PC.failed cj ej)) :
    ∃ e0, firstDoneErr (s.pcs.map PC.task) = some e0 ∧
      (∃ i0 c0, s.pcs.get? i0 = some (PC.failed c0 e0)) ∧
      ∀ cancelErrs,
        coordinatorOutcome s cancelErrs =
          { outcome := Outcome.failedWith (Err.workerErr e0),
            cancelledRest := false } ∧
        ∀ e', (coordinatorOutcome s cancelErrs).outcome =
            Outcome.failedWith (Err.workerErr e') → e' = e0 := by
  have inv := crawlInv_reach h
  have hd := failed_not_drained inv hi
  obtain ⟨e0, i0, c0, hh, hf0⟩ := firstDone_of_failed hi
  refine ⟨e0, ?_, ⟨i0, c0, hf0⟩, ?_⟩
  · unfold firstDoneErr
    rw [hh]
  · intro cancelErrs
    have hout := coordinatorOutcome_failed hd hh cancelErrs
    refine ⟨hout, ?_⟩
    intro e' he'
    rw [hout] at he'
    have he2 : Outcome.failedWith (Err.workerErr e0) =
        Outcome.failedWith (Err.workerErr e') := he'
    exact (Err.workerErr.inj (Outcome.failedWith.inj he2)).symm

/-- The per-record operation order exactly as claim C7 states it: every
reaction link of a record would have to be logged before the record's
emit event. -/
def linksBeforeEmit (t : List Event) : Prop :=
  ∀ j w mid aid tid, t.get? j = some (Event.emit w mid aid tid) →
    ∀ i w' uid, t.get? i = some (Event.link w' uid mid) → i < j

/-- C5 fails on the code: when the first finished worker terminated
without an exception while the queue is not drained,
`workers_done[0].result()` returns normally and `process_channels`
proceeds exactly as on success — it cancels the remaining workers and
returns `authors`; no "worker exited unexpectedly" failure exists in
the code. -/
theorem C5_counterexample :
    (coordinatorDecision false [TaskState.doneOk, TaskState.running] [] []
      = { outcome := Outcome.completed [], cancelledRest := true }) ∧
    ∀ err : Err,
      (coordinatorDecision false [TaskState.doneOk, TaskState.running]
        [] []).outcome ≠ Outcome.failedWith err := by
  refine ⟨rfl, ?_⟩
  intro err hcontra
  have h2 : Outcome.completed [] = Outcome.failedWith err := hcontra
  exact Outcome.noConfusion h2

/-- C5 amended: a worker task never reports a clean exit (its loop is
unbounded), and if a cleanly finished task were nevertheless the first
finished worker while the queue is not drained, the coordinator would
not treat the crawl as failed: `workers_done[0].result()` returns
without raising and `process_channels` cancels the remaining workers
and returns the registry as a completed crawl. -/
theorem C5_clean_exit_amended (ws : List TaskState) (cancelErrs : List Nat)
    (registry : List Actor)
    (h : (ws.filter TaskState.isDone).head? = some TaskState.doneOk) :
    coordinatorDecision false ws cancelErrs registry =
      { outcome := Outcome.completed registry, cancelledRest := true } ∧
    ∀ p : PC, PC.task p ≠ TaskState.doneOk := by
  refine ⟨?_, pcTask_ne_doneOk⟩
  simp [coordinatorDecision, h]

theorem C5_clean_exit_amended_witness :
    (coordinatorDecision false [TaskState.doneOk] [] [] =
      { outcome := Outcome.completed [], cancelledRest := true }) ∧
    ∀ p : PC, PC.task p ≠ TaskState.doneOk :=
  C5_clean_exit_amended [TaskState.doneOk] [] [] rfl

/-- C6 fails on the code: when the first finished worker finished with
an error, `workers_done[0].result()` re-raises that error *before* the
cancel loop, so the still-running workers are not cancelled by
`process_channels` on the failure path. -/
theorem C6_counterexample :
    (coordinatorDecision false [TaskState.doneErr 7, TaskState.running]
      [] []).cancelledRest = false ∧
    (coordinatorDecision false [TaskState.doneErr 7, TaskState.running]
      [] []).outcome = Outcome.failedWith (Err.workerErr 7) :=
  ⟨rfl, rfl⟩

/-- C6 amended: the cancel-and-gather phase of `process_channels` runs
exactly when no error is surfaced — when the drain watcher won the race
or when the first finished worker finished cleanly; when a worker error
is surfaced, the remaining workers are not cancelled by
`process_channels` (the raise precedes the cancel loop).  Errors
collected by `gather(..., return_exceptions=True)` during cancellation
never influence the outcome. -/
theorem C6_cancel_amended (queueDone : Bool) (ws : List TaskState)
    (cancelErrs : List Nat) (registry : List Actor) :
    coordinatorDecision queueDone ws cancelErrs registry =
      coordinatorDecision queueDone ws [] registry ∧
    ((coordinatorDecision queueDone ws cancelErrs registry).cancelledRest
        = true ↔
      ∃ r, (coordinatorDecision queueDone ws cancelErrs registry).outcome =
        Outcome.completed r) := by
  refine ⟨rfl, ?_⟩
  cases queueDone with
  | true => simp [coordinatorDecision]
  | false =>
      cases hh : (ws.filter TaskState.isDone).head? with
      | none => simp [coordinatorDecision, hh]
      | some ts => cases ts <;> simp [coordinatorDecision, hh]

/-- C7 amended: in every reachable state of every crawl, per record the
worker performs its operations in this order — it first enqueues the
discovered child container (when one is disclosed), then resolves the
author actor, then emits the `ClubMessage` row (`emitOrderAt`: the
author resolve precedes the emit and the child put precedes that
resolve), and creates each `ClubPinReaction` link only after first the
row was emitted and then the reacting user resolved (`linkOrderAt`:
emit strictly before the reactor resolve, which is strictly before the
link) — the source emits the record before processing reactions, not
after; and a container is marked done only after every one of its
records has been emitted, its qualifying reaction links created, and
its disclosed children enqueued. -/
theorem C7_record_step_order (seeds : List Channel) (n : Nat) (s : St)
    (h : Reach (init seeds n) s) :
    TraceOrd s.trace ∧
    ∀ c ∈ s.doneChannels, ∀ mt : Msg × Option Channel, mt ∈ c.items →
      msgRow c mt.1 ∈ s.messages ∧
      (∀ u ∈ get_reacting_users mt.1.reactions, (u.id, mt.1.mid) ∈ s.pins) ∧
      (∀ tc : Channel, mt.2 = some tc → tc ∈ s.enqueued) := by
  have inv := crawlInv_reach h
  exact ⟨inv.trOrd, fun c hc mt hmt => inv.doneFull c hc mt hmt⟩

/-- C8: ReactionLink qualifying-set invariant — every pin row in every
reachable state of every crawl originates from a reaction of the
recorded message whose normalized emoji label belongs to `EMOJI_PINS`,
placed by a user with the recorded id; no link is ever created from a
reaction outside the qualifying set. -/
theorem C8_reaction_qualifying (seeds : List Channel) (n : Nat) (s : St)
    (h : Reach (init seeds n) s) (uid mid : Nat)
    (hp : (uid, mid) ∈ s.pins) :
    ∃ c ∈ s.enqueued, ∃ m th, (m, th) ∈ c.items ∧ m.mid = mid ∧
      ∃ r ∈ m.reactions, emoji_name r.emoji ∈ EMOJI_PINS ∧
        ∃ v ∈ r.users, v.id = uid := by
  have inv := crawlInv_reach h
  obtain ⟨c, hc, m, th, hmt, hmid, u, hu, hid⟩ := inv.pinsProv (uid, mid) hp
  obtain ⟨r, hr, hq, hv⟩ := mem_get_reacting_users hu
  exact ⟨c, hc, m, th, hmt, hmid, r, hr, hq, u, hv, hid⟩

/-- C9: reaction-link pair dedup per record — the reacting users of a
message are collected into a set (deduplicated by user identity, which
is id equality) before any link is created, so the pin rows created for
one record contain at most one entry per (actor, record) pair, no
matter how many distinct qualifying reactions the actor placed. -/
theorem C9_pair_dedup (m : Msg) :
    ((get_reacting_users m.reactions).map RUser.id).Nodup ∧
    (reactionPins m).Nodup := by
  refine ⟨get_reacting_users_nodup m.reactions, ?_⟩
  have h := get_reacting_users_nodup m.reactions
  have heq : reactionPins m =
      ((get_reacting_users m.reactions).map RUser.id).map
        (fun x => (x, m.mid)) := by
    simp only [reactionPins, create_reaction]
    rw [List.map_map]
    rfl
  rw [heq]
  exact List.Nodup.map (fun a b hab => by simpa using congrArg Prod.fst hab) h

/-- C10: Actor membership/joined-at coupling — `create_user` stores
`is_member = true` exactly when the source identity carries the
`joined_at` attribute (a guild member), stores a null `joined_at`
exactly when the flag is false, and otherwise stores the attribute's
value. -/
theorem C10_member_joined_coupling (user : RUser) :
    ((create_user user).is_member = true ↔ user.joined_at.isSome = true) ∧
    ((create_user user).joined_at = none ↔
      (create_user user).is_member = false) ∧
    (create_user user).joined_at = user.joined_at := by
  cases h : user.joined_at <;> simp [create_user, h]

/-! ### A concrete crawl used to instantiate the theorems

One seed channel with one message that discloses a thread and carries
one qualifying pin reaction; the thread holds one reply.  One worker
processes everything to the drained state. -/

def u1 : RUser :=
  { id := 1, bot := false, display_name := "Alice", mention := "<@1>",
    joined_at := some 1000, roles := [5] }

def u2 : RUser :=
  { id := 2, bot := false, display_name := "Bob", mention := "<@2>",
    joined_at := none, roles := [] }

def r1 : Reaction := { emoji := "📌", users := [u2] }

def mB : Msg := Msg.mk 200 "u200" "reply" u2 [] 20 none "default"

def thB : Channel := Channel.mk 10 "thread" "<#10>" [(mB, none)]

def mA : Msg := Msg.mk 100 "u100" "hello" u1 [r1] 10 none "default"

def chA : Channel := Channel.mk 1 "general" "<#1>" [(mA, some thB)]

def d1 : St :=
  { queue := [], unfinished := 1, authors := [], messages := [], pins := [],
    pcs := [PC.fetchMsg chA 0], trace := [Event.put 1 1],
    enqueued := [chA], doneChannels := [] }

def d2 : St := { d1 with pcs := [PC.gotThread chA 0] }

def d3 : St :=
  { queue := [thB], unfinished := 2, authors := [create_user u1],
    messages := [msgRow chA mA], pins := [],
    pcs := [PC.postEmit chA 0],
    trace := [Event.put 1 1, Event.put 0 10, Event.resolve 0 1,
      Event.emit 0 100 1 (some 10)],
    enqueued := [chA, thB], doneChannels := [] }

def d4 : St :=
  { queue := [thB], unfinished := 2,
    authors := [create_user u1, create_user u2],
    messages := [msgRow chA mA], pins := [(2, 100)],
    pcs := [PC.fetchMsg chA 1],
    trace := [Event.put 1 1, Event.put 0 10, Event.resolve 0 1,
      Event.emit 0 100 1 (some 10), Event.resolve 0 2, Event.link 0 2 100],
    enqueued := [chA, thB], doneChannels := [] }

def d5 : St :=
  { d4 with
    unfinished := 1
    doneChannels := [chA]
    pcs := [PC.idle]
    trace := d4.trace ++ [Event.markDone 0 1] }

def d6 : St := { d5 with queue := [], pcs := [PC.fetchMsg thB 0] }

def d7 : St :=
  { d6 with
    messages := [msgRow chA mA, msgRow thB mB]
    pcs := [PC.postEmit thB 0]
    trace := d6.trace ++ [Event.resolve 0 2, Event.emit 0 200 2 none] }

def d8 : St := { d7 with pcs := [PC.fetchMsg thB 1] }

def d9 : St :=
  { d8 with
    unfinished := 0
    doneChannels := [chA, thB]
    pcs := [PC.idle]
    trace := d8.trace ++ [Event.markDone 0 10] }

theorem demoStep1 : Step (init [chA] 1) d1 :=
  Step.get (init [chA] 1) 0 chA [] rfl rfl

theorem demoStep2 : Step d1 d2 :=
  Step.msgThread d1 0 chA 0 mA thB rfl rfl

theorem demoStep3 : Step d2 d3 :=
  Step.threadBlock d2 0 chA 0 mA thB rfl rfl

theorem demoStep4 : Step d3 d4 :=
  Step.reactions d3 0 chA 0 mA (some thB) rfl rfl

theorem demoStep5 : Step d4 d5 :=
  Step.finish d4 0 chA 1 rfl rfl

theorem demoStep6 : Step d5 d6 :=
  Step.get d5 0 thB [] rfl rfl

theorem demoStep7 : Step d6 d7 :=
  Step.msgPlain d6 0 thB 0 mB rfl rfl

theorem demoStep8 : Step d7 d8 :=
  Step.reactions d7 0 thB 0 mB none rfl rfl

theorem demoStep9 : Step d8 d9 :=
  Step.finish d8 0 thB 1 rfl rfl

theorem demoReach9 : Reach (init [chA] 1) d9 :=
  Reach.step
    (Reach.step
      (Reach.step
        (Reach.step
          (Reach.step
            (Reach.step
              (Reach.step
                (Reach.step
                  (Reach.step Reach.refl demoStep1)
                  demoStep2)
                demoStep3)
              demoStep4)
            demoStep5)
          demoStep6)
        demoStep7)
      demoStep8)
    demoStep9

/-! ### A concrete failing crawl: two workers, both hit provider
errors while reading their channels. -/

def chB : Channel := Channel.mk 2 "jobs" "<#2>" []

def f1 : St :=
  { queue := [chB], unfinished := 2, authors := [], messages := [],
    pins := [], pcs := [PC.fetchMsg chA 0, PC.idle],
    trace := [Event.put 2 1, Event.put 2 2],
    enqueued := [chA, chB], doneChannels := [] }

def f2 : St := { f1 with queue := [], pcs := [PC.fetchMsg chA 0, PC.fetchMsg chB 0] }

def f3 : St := { f2 with pcs := [PC.failed chA 5, PC.fetchMsg chB 0] }

def f4 : St := { f3 with pcs := [PC.failed chA 5, PC.failed chB 7] }

theorem demoFailStep1 : Step (init [chA, chB] 2) f1 :=
  Step.get (init [chA, chB] 2) 0 chA [chB] rfl rfl

theorem demoFailStep2 : Step f1 f2 :=
  Step.get f1 1 chB [] rfl rfl

theorem demoFailStep3 : Step f2 f3 :=
  Step.failFetch f2 0 chA 0 5 rfl

theorem demoFailStep4 : Step f3 f4 :=
  Step.failFetch f3 1 chB 0 7 rfl

/-- Worker 0 fails while `chB` is still sitting in the queue. -/
def f5 : St := { f1 with pcs := [PC.failed chA 5, PC.idle] }

theorem demoFailStep5 : Step f1 f5 :=
  Step.failFetch f1 0 chA 0 5 rfl

theorem demoReachF5 : Reach (init [chA, chB] 2) f5 :=
  Reach.step (Reach.step Reach.refl demoFailStep1) demoFailStep5

theorem demoReachF3 : Reach (init [chA, chB] 2) f3 :=
  Reach.step (Reach.step (Reach.step Reach.refl demoFailStep1)
    demoFailStep2) demoFailStep3

theorem demoReachF4 : Reach (init [chA, chB] 2) f4 :=
  Reach.step demoReachF3 demoFailStep4

/-! ### Witnesses -/

theorem C1_actor_dedup_witness :
    (d9.authors.map Actor.id).Nodup ∧
    (d9.authors.map Actor.id).toFinset =
      (d9.messages.map MsgRecord.author).toFinset ∪
        (d9.pins.map Prod.fst).toFinset ∧
    d9.authors.length =
      ((d9.messages.map MsgRecord.author).toFinset ∪
        (d9.pins.map Prod.fst).toFinset).card :=
  C1_actor_dedup [chA] 1 d9 demoReach9

theorem C2_drain_completeness_witness :
    d9.unfinished + d9.doneChannels.length = d9.enqueued.length ∧
    (drained d9 = true ↔ d9.unfinished = 0) ∧
    (drained d9 = true → ∀ c ∈ d9.enqueued, c ∈ d9.doneChannels) :=
  C2_drain_completeness [chA] 1 d9 demoReach9

theorem C3_fail_fast_witness :
    drained f5 = false ∧
    chA ∈ activeChannels f5.pcs ∧
    f5.enqueued.Perm (f5.doneChannels ++ f5.queue ++ activeChannels f5.pcs) ∧
    (∀ s' : St, Step f5 s' → s'.pcs.get? 0 = some (PC.failed chA 5)) ∧
    ((∀ j c' e', f5.pcs.get? j = some (PC.failed c' e') →
        c' = chA ∧ e' = 5) →
      ∀ cancelErrs, coordinatorOutcome f5 cancelErrs =
        { outcome := Outcome.failedWith (Err.workerErr 5),
          cancelledRest := false }) :=
  C3_fail_fast [chA, chB] 2 f5 demoReachF5 0 chA 5 rfl

theorem C4_first_error_wins_witness :
    ∃ e0, firstDoneErr (f4.pcs.map PC.task) = some e0 ∧
      (∃ i0 c0, f4.pcs.get? i0 = some (PC.failed c0 e0)) ∧
      ∀ cancelErrs,
        coordinatorOutcome f4 cancelErrs =
          { outcome := Outcome.failedWith (Err.workerErr e0),
            cancelledRest := false } ∧
        ∀ e', (coordinatorOutcome f4 cancelErrs).outcome =
            Outcome.failedWith (Err.workerErr e') → e' = e0 :=
  C4_first_error_wins [chA, chB] 2 f4 demoReachF4 0 1 chA chB 5 7
    (by decide) rfl rfl

/-- The claim's ordering is violated on a concrete run: for the first
message the emit event sits at log position 3 while its reaction link
sits at position 5 — the link is created after the record is emitted,
not before. -/
theorem C7_counterexample :
    Reach (init [chA] 1) d9 ∧ ¬ linksBeforeEmit d9.trace := by
  refine ⟨demoReach9, ?_⟩
  intro hlbe
  have h35 := hlbe 3 0 100 1 (some 10) rfl 5 0 2 rfl
  omega

theorem C7_record_step_order_witness :
    TraceOrd d9.trace ∧
    ∀ c ∈ d9.doneChannels, ∀ mt : Msg × Option Channel, mt ∈ c.items →
      msgRow c mt.1 ∈ d9.messages ∧
      (∀ u ∈ get_reacting_users mt.1.reactions, (u.id, mt.1.mid) ∈ d9.pins) ∧
      (∀ tc : Channel, mt.2 = some tc → tc ∈ d9.enqueued) :=
  C7_record_step_order [chA] 1 d9 demoReach9

theorem C8_reaction_qualifying_witness :
    ∃ c ∈ d9.enqueued, ∃ m th, (m, th) ∈ c.items ∧ m.mid = 100 ∧
      ∃ r ∈ m.reactions, emoji_name r.emoji ∈ EMOJI_PINS ∧
        ∃ v ∈ r.users, v.id = 2 :=
  C8_reaction_qualifying [chA] 1 d9 demoReach9 2 100 (by decide)
